import Mathlib

/-!
Verification of the mesh-topology, point-location, assembly and
characteristic-tracing layers of the `navierStokes` 2-D finite-element
solver, against a shallow embedding of the C++ sources.

Numbers: the C++ `double` values are modelled as exact rationals `ℚ`
(and, where the source manipulates values of the form `a + b*sqrt 15`,
as the computable quadratic extension `Q15` defined below), so every
definition is executable and every predicate decidable.
-/

namespace NS

/-- Model of the C++ `Vertex` class (`mesh.hpp`): a 2-D point with a
global index `NumGlobal_` and a boundary `Label`.  The gmsh variant of
the class additionally carries a per-vertex incidence list `tri` of the
triangles touching the vertex (field `tri`, methods
`ajoutTri`/`getTri`); the legacy variant does not have it, and never
reads it, so a single structure serves both. -/
structure Vertex where
  x : ℚ
  y : ℚ
  num : ℕ
  lab : ℤ
  tri : List ℕ := []
  deriving Repr, DecidableEq

/-- A default vertex, standing for the value of a default-constructed
C++ `Vertex` before its fields are set. -/
def Vertex.default : Vertex := ⟨0, 0, 0, 0, []⟩

/-- Model of `lambda` (`Fonctions_Utiles.hpp`): the three barycentric
coordinates of the reference triangle, lambda 0 = 1 - x - y,
lambda 1 = x, lambda 2 = y, over any commutative ring. -/
def lambda {K : Type} [CommRing K] (i : ℕ) (P : K × K) : K :=
  if i = 0 then 1 - P.1 - P.2
  else if i = 1 then P.1
  else P.2

/-- Model of `Phi` (`Fonctions_Utiles.hpp`): the six quadratic (P2)
shape functions on the reference triangle; corner nodes `i < 3` give
`lambda i * (2 * lambda i - 1)`, midpoint nodes `i = 3,4,5` give
`4 * lambda ((i-1) % 3) * lambda ((i-2) % 3)`. -/
def Phi {K : Type} [CommRing K] (i : ℕ) (P : K × K) : K :=
  if i < 3 then lambda i P * (2 * lambda i P - 1)
  else 4 * lambda ((i - 1) % 3) P * lambda ((i - 2) % 3) P

/-- Model of the boundary-condition function `g`
(`Fonctions_Utiles.hpp`): the parabolic inflow profile
`(1 - y) * (y - 0.5) * 16` for the inflow label 10, and 0 for every
other label. -/
def g (P : Vertex) (label : ℤ) : ℚ :=
  if label = 10 then (1 - P.y) * (P.y - 1/2) * 16 else 0

/-- Outcome of the out-of-domain fallback of `CalculCaracteristique`
(`Fonctions_Utiles.hpp`, branch `vois < 0`): either the two velocity
components are produced directly with no further triangle search, or
the clamped point is handed to the exit-triangle search
(`find_triangle`). -/
inductive FallbackOut where
  | direct (u1 u2 : ℚ)
  | exitSearch (pt : ℚ × ℚ)
  deriving Repr, DecidableEq

/-- The y-clamp of the left-edge fallback branch of
`CalculCaracteristique`: `y < 0.5` becomes `0.5`, `0.5 ≤ y ≤ 1` is
kept, `y > 1` becomes `1`. -/
def clampInflowY (y : ℚ) : ℚ :=
  if y < 1/2 then 1/2 else if y ≤ 1 then y else 1

/-- Model of the fallback policy of `CalculCaracteristique`
(`Fonctions_Utiles.hpp`, lines 296-327), entered when `RecupVoisins`
returned a negative triangle index for the backward-displaced point
`pc`: for `pc.x < 0` the point is moved to `x = 0`, its y-coordinate
clamped by `clampInflowY`, and the velocity is `(g _ 10, 0)` directly;
for `0 ≤ pc.x ≤ 10` the velocity is `(0, 0)`; for `pc.x > 10` the point
is moved to `x = 10` and either the velocity is `(0, 0)` (when
`y ≤ 0` or `y ≥ 1`) or the exit-triangle list is searched. -/
def caracFallback (pc : ℚ × ℚ) : FallbackOut :=
  if pc.1 < 0 then
    let yc := clampInflowY pc.2
    .direct (g ⟨0, yc, 0, 0, []⟩ 10) 0
  else if pc.1 ≤ 10 then
    .direct 0 0
  else if pc.2 ≤ 0 ∨ 1 ≤ pc.2 then
    .direct 0 0
  else
    .exitSearch (10, pc.2)

/-- C8: the six P2 shape functions `Phi` sum to 1 at every point of
every commutative ring, not only inside the reference triangle. -/
theorem phi_partition_of_unity {K : Type} [CommRing K] (P : K × K) :
    ∑ i ∈ Finset.range 6, Phi i P = 1 := by
  simp [Finset.sum_range_succ, Phi, lambda]
  ring

/-- C5: whenever the containing triangle of a displaced point is not
found and its x-coordinate is below the domain's left edge (`x < 0`),
the fallback of `CalculCaracteristique` clamps y into `[1/2, 1]`,
returns directly (no further triangle search) the inflow profile
`g` at the clamped point with the inflow label 10 as x-velocity and 0
as y-velocity; in particular a displaced `y = 3/10` is clamped to
`1/2`, where the profile evaluates to 0. -/
theorem carac_fallback_left_edge (pc : ℚ × ℚ) (h : pc.1 < 0) :
    (1/2 ≤ clampInflowY pc.2 ∧ clampInflowY pc.2 ≤ 1) ∧
    caracFallback pc =
      .direct ((1 - clampInflowY pc.2) * (clampInflowY pc.2 - 1/2) * 16) 0 ∧
    (pc.2 = 3/10 → clampInflowY pc.2 = 1/2 ∧ caracFallback pc = .direct 0 0) := by
  have hcl : 1/2 ≤ clampInflowY pc.2 ∧ clampInflowY pc.2 ≤ 1 := by
    unfold clampInflowY
    split
    · exact ⟨le_refl _, by norm_num⟩
    · split
      · constructor <;> linarith
      · exact ⟨by norm_num, le_refl _⟩
  refine ⟨hcl, ?_, ?_⟩
  · simp [caracFallback, if_pos h, g]
  · intro hy
    have h12 : clampInflowY pc.2 = 1/2 := by
      unfold clampInflowY
      rw [hy]
      norm_num
    refine ⟨h12, ?_⟩
    simp [caracFallback, if_pos h, g, h12]

/-- Closed witness for C5 at the displaced point `(-1, 3/10)`. -/
theorem carac_fallback_left_edge_witness :
    ((-1 : ℚ), (3/10 : ℚ)).1 < 0 ∧
    ((1/2 ≤ clampInflowY ((-1 : ℚ), (3/10 : ℚ)).2 ∧
        clampInflowY ((-1 : ℚ), (3/10 : ℚ)).2 ≤ 1) ∧
      caracFallback ((-1 : ℚ), (3/10 : ℚ)) =
        .direct ((1 - clampInflowY ((-1 : ℚ), (3/10 : ℚ)).2) *
          (clampInflowY ((-1 : ℚ), (3/10 : ℚ)).2 - 1/2) * 16) 0 ∧
      (((-1 : ℚ), (3/10 : ℚ)).2 = 3/10 →
        clampInflowY ((-1 : ℚ), (3/10 : ℚ)).2 = 1/2 ∧
        caracFallback ((-1 : ℚ), (3/10 : ℚ)) = .direct 0 0)) :=
  ⟨by norm_num, carac_fallback_left_edge ((-1 : ℚ), (3/10 : ℚ)) (by norm_num)⟩

/-! ### Dirichlet boundary-condition stamping (`resolution_Stokes`) -/

/-- Model of the global constant `tgv = 10e30` of
`Fonctions_Utiles.hpp` (the big-penalty value, `10e30 = 10 * 10^30`). -/
def tgv : ℚ := 10 * 10 ^ 30

/-- A triangle as consumed by the boundary-stamping loop of
`resolution_Stokes`: three corner vertices and three midpoint vertices,
both carrying global numbers and boundary labels (the state of
`Triangle` after `PointsMil` has run). -/
structure StTri where
  v : Fin 3 → Vertex
  mil : Fin 3 → Vertex

/-- The vertex holding the data of local dof `il` of a triangle:
corner `il` for `il < 3`, midpoint `il - 3` otherwise (mirrors the
`il < 3` branches of the stamping loop). -/
def dofVertex (t : StTri) (il : Fin 6) : Vertex :=
  if h : (il : ℕ) < 3 then t.v ⟨il, h⟩ else t.mil ⟨(il : ℕ) - 3, by omega⟩

/-- Overwrite a key of the global sparse map with a value, but only
when the key is already present — the C++ code guards each diagonal
write with `if (M.find(key) != M.end())`. -/
def setIfPresent (M : ℕ × ℕ → Option ℚ) (key : ℕ × ℕ) (val : ℚ) :
    ℕ × ℕ → Option ℚ :=
  fun k => if k = key then (M key).map (fun _ => val) else M k

/-- The writes performed by the stamping loop for one Dirichlet dof
vertex `vt` (`resolution_Stokes`, `part_001` lines 85-103): the matrix
diagonal at `(i1, i1)` and `(i2, i2)` is overwritten with `tgv` when
present, `b[i1]` is set to `g(vt, lab) * tgv` and `b[i2]` to 0, where
`i1 = vt.num` and `i2 = vt.num + n`. -/
def stampDof (n : ℕ) (vt : Vertex) (Mb : (ℕ × ℕ → Option ℚ) × (ℕ → ℚ)) :
    (ℕ × ℕ → Option ℚ) × (ℕ → ℚ) :=
  let i1 := vt.num
  let i2 := vt.num + n
  let M2 := setIfPresent (setIfPresent Mb.1 (i1, i1) tgv) (i2, i2) tgv
  let b2 := fun j =>
    if j = i2 then 0 else if j = i1 then g vt vt.lab * tgv else Mb.2 j
  (M2, b2)

/-- The Dirichlet label test of the stamping loop:
`lab == 10 || lab == 20 || lab == 40` (the outflow label 30 is
excluded). -/
def isDirichletLab (l : ℤ) : Prop := l = 10 ∨ l = 20 ∨ l = 40

instance (l : ℤ) : Decidable (isDirichletLab l) := by
  unfold isDirichletLab
  infer_instance

/-- One triangle's pass of the stamping loop of `resolution_Stokes`:
for each of the six corner/midpoint dofs, if its label is a Dirichlet
code, perform the `stampDof` writes. -/
def stampTri (n : ℕ) (t : StTri) (Mb : (ℕ × ℕ → Option ℚ) × (ℕ → ℚ)) :
    (ℕ × ℕ → Option ℚ) × (ℕ → ℚ) :=
  (List.finRange 6).foldl
    (fun acc il =>
      let vt := dofVertex t il
      if isDirichletLab vt.lab then stampDof n vt acc else acc) Mb

/-- The full Dirichlet boundary-condition stamping step of
`resolution_Stokes` (`part_001` lines 77-106), in the assembled-system
case (`MapExiste == 0`, so the matrix diagonal writes are active):
iterate `stampTri` over all triangles. -/
def stampBC (Th : List StTri) (n : ℕ) (M : ℕ × ℕ → Option ℚ) (b : ℕ → ℚ) :
    (ℕ × ℕ → Option ℚ) × (ℕ → ℚ) :=
  Th.foldl (fun acc t => stampTri n t acc) (M, b)

/-- The Dirichlet dof vertices of one triangle, in stamping order. -/
def opsOfTri (t : StTri) : List Vertex :=
  ((List.finRange 6).map (dofVertex t)).filter
    (fun vt => decide (isDirichletLab vt.lab))

/-- All Dirichlet dof vertices of the mesh, in stamping order; the
stamping step is exactly the sequence of `stampDof` writes for this
list. -/
def stampOps (Th : List StTri) : List Vertex :=
  Th.foldr (fun t acc => opsOfTri t ++ acc) []

/-- Folding the `stampDof` writes over an explicit op list. -/
def applyOps (n : ℕ) (ops : List Vertex)
    (Mb : (ℕ × ℕ → Option ℚ) × (ℕ → ℚ)) :
    (ℕ × ℕ → Option ℚ) × (ℕ → ℚ) :=
  ops.foldl (fun acc vt => stampDof n vt acc) Mb

theorem stampTri_eq_applyOps (n : ℕ) (t : StTri)
    (Mb : (ℕ × ℕ → Option ℚ) × (ℕ → ℚ)) :
    stampTri n t Mb = applyOps n (opsOfTri t) Mb := by
  unfold stampTri opsOfTri applyOps
  generalize List.finRange 6 = l
  induction l generalizing Mb with
  | nil => rfl
  | cons il rest ih =>
      by_cases h : isDirichletLab (dofVertex t il).lab
      · simp [List.filter_cons, h, ih]
      · simp [List.filter_cons, h, ih]

theorem stampBC_eq_applyOps (Th : List StTri) (n : ℕ)
    (M : ℕ × ℕ → Option ℚ) (b : ℕ → ℚ) :
    stampBC Th n M b = applyOps n (stampOps Th) (M, b) := by
  unfold stampBC stampOps
  generalize hMb : (M, b) = Mb
  clear hMb
  induction Th generalizing Mb with
  | nil => rfl
  | cons t rest ih =>
      simp only [List.foldl_cons, List.foldr_cons, ih, applyOps,
        List.foldl_append]
      rw [stampTri_eq_applyOps]
      rfl

/-- Pointwise effect of one op on the sparse map: a targeted diagonal
key that is present becomes `tgv`; everything else is unchanged. -/
theorem stampDof_fst_char (n : ℕ) (vt : Vertex)
    (Mb : (ℕ × ℕ → Option ℚ) × (ℕ → ℚ)) (k : ℕ × ℕ) :
    (stampDof n vt Mb).1 k =
      if (k = (vt.num, vt.num) ∨ k = (vt.num + n, vt.num + n)) ∧
          (Mb.1 k).isSome then some tgv
      else Mb.1 k := by
  simp only [stampDof, setIfPresent]
  by_cases h2 : k = (vt.num + n, vt.num + n)
  · subst h2
    rw [if_pos rfl]
    by_cases h1 : ((vt.num + n, vt.num + n) : ℕ × ℕ) = (vt.num, vt.num)
    · rw [if_pos h1]
      have hMeq : Mb.1 (vt.num, vt.num) = Mb.1 (vt.num + n, vt.num + n) := by
        rw [h1]
      rw [hMeq]
      rcases hM : Mb.1 (vt.num + n, vt.num + n) with _ | a
      · simp [hM]
      · simp [hM]
    · rw [if_neg h1]
      rcases hM : Mb.1 (vt.num + n, vt.num + n) with _ | a
      · simp [hM]
      · simp [hM]
  · rw [if_neg h2]
    by_cases h1 : k = (vt.num, vt.num)
    · subst h1
      rw [if_pos rfl]
      rcases hM : Mb.1 (vt.num, vt.num) with _ | a
      · simp [hM]
      · simp [hM]
    · rw [if_neg h1]
      have : ¬ ((k = (vt.num, vt.num) ∨ k = (vt.num + n, vt.num + n)) ∧
          (Mb.1 k).isSome) := by
        rintro ⟨h | h, -⟩
        · exact h1 h
        · exact h2 h
      rw [if_neg this]

/-- Pointwise effect of one op on the right-hand side. -/
theorem stampDof_snd_char (n : ℕ) (vt : Vertex)
    (Mb : (ℕ × ℕ → Option ℚ) × (ℕ → ℚ)) (i : ℕ) :
    (stampDof n vt Mb).2 i =
      if i = vt.num + n then 0
      else if i = vt.num then g vt vt.lab * tgv
      else Mb.2 i := rfl

/-- `stampDof` never inserts or deletes a key of the sparse map. -/
theorem stampDof_isSome (n : ℕ) (vt : Vertex)
    (Mb : (ℕ × ℕ → Option ℚ) × (ℕ → ℚ)) (key : ℕ × ℕ) :
    (((stampDof n vt Mb).1 key).isSome) = ((Mb.1 key).isSome) := by
  rw [stampDof_fst_char]
  by_cases h : (key = (vt.num, vt.num) ∨ key = (vt.num + n, vt.num + n)) ∧
      (Mb.1 key).isSome
  · rw [if_pos h]
    simp [h.2]
  · rw [if_neg h]

theorem applyOps_isSome (n : ℕ) (ops : List Vertex)
    (Mb : (ℕ × ℕ → Option ℚ) × (ℕ → ℚ)) (key : ℕ × ℕ) :
    (((applyOps n ops Mb).1 key).isSome) = ((Mb.1 key).isSome) := by
  induction ops generalizing Mb with
  | nil => rfl
  | cons vt rest ih =>
      simp only [applyOps, List.foldl_cons] at *
      rw [ih, stampDof_isSome]

/-- A key is a diagonal key targeted by one of the ops. -/
def touchesDiag (ops : List Vertex) (n : ℕ) (key : ℕ × ℕ) : Prop :=
  ∃ vt ∈ ops, key = (vt.num, vt.num) ∨ key = (vt.num + n, vt.num + n)

instance (ops : List Vertex) (n : ℕ) (key : ℕ × ℕ) :
    Decidable (touchesDiag ops n key) := by
  unfold touchesDiag
  infer_instance

/-- Final value of the sparse map after a sequence of stamping writes:
a targeted, initially-present diagonal key holds `tgv`; every other key
is unchanged. -/
theorem applyOps_fst_char (n : ℕ) (ops : List Vertex)
    (Mb : (ℕ × ℕ → Option ℚ) × (ℕ → ℚ)) (key : ℕ × ℕ) :
    (applyOps n ops Mb).1 key =
      if touchesDiag ops n key ∧ (Mb.1 key).isSome then some tgv
      else Mb.1 key := by
  induction ops generalizing Mb with
  | nil => simp [applyOps, touchesDiag]
  | cons vt rest ih =>
      have hsome : ((stampDof n vt Mb).1 key).isSome = (Mb.1 key).isSome :=
        stampDof_isSome n vt Mb key
      simp only [applyOps, List.foldl_cons]
      rw [show (List.foldl (fun acc vt => stampDof n vt acc)
          (stampDof n vt Mb) rest) = applyOps n rest (stampDof n vt Mb)
        from rfl]
      rw [ih, hsome, stampDof_fst_char]
      have hcons : touchesDiag (vt :: rest) n key ↔
          (key = (vt.num, vt.num) ∨ key = (vt.num + n, vt.num + n)) ∨
            touchesDiag rest n key := by
        simp only [touchesDiag, List.mem_cons]
        constructor
        · rintro ⟨w, hw | hw, hk⟩
          · subst hw
            exact Or.inl hk
          · exact Or.inr ⟨w, hw, hk⟩
        · rintro (hk | ⟨w, hw, hk⟩)
          · exact ⟨vt, Or.inl rfl, hk⟩
          · exact ⟨w, Or.inr hw, hk⟩
      by_cases hp : (Mb.1 key).isSome
      · by_cases htr : touchesDiag rest n key
        · simp [htr, hp, hcons]
        · by_cases hv : key = (vt.num, vt.num) ∨ key = (vt.num + n, vt.num + n)
          · simp [htr, hp, hv, hcons]
          · simp [htr, hp, hv, hcons]
      · simp [hp]

/-- The right-hand-side writes of one op match `i` (as the `b[i1]` or
the `b[i2]` write). -/
def bMatch (n : ℕ) (i : ℕ) (vt : Vertex) : Bool :=
  decide (vt.num = i ∨ vt.num + n = i)

/-- Final value of the right-hand side after a sequence of stamping
writes: the last op writing position `i` decides its value (`0` for an
`i2` write, `g * tgv` for an `i1` write); positions never written keep
their initial value. -/
theorem applyOps_snd_char (n : ℕ) (ops : List Vertex)
    (Mb : (ℕ × ℕ → Option ℚ) × (ℕ → ℚ)) (i : ℕ) :
    (applyOps n ops Mb).2 i =
      match ops.reverse.find? (bMatch n i) with
      | some vt => if vt.num + n = i then 0 else g vt vt.lab * tgv
      | none => Mb.2 i := by
  induction ops generalizing Mb with
  | nil => simp [applyOps]
  | cons vt rest ih =>
      simp only [applyOps, List.foldl_cons, List.reverse_cons]
      rw [show (List.foldl (fun acc vt => stampDof n vt acc)
          (stampDof n vt Mb) rest) = applyOps n rest (stampDof n vt Mb)
        from rfl]
      rw [ih, List.find?_append]
      rcases hfr : rest.reverse.find? (bMatch n i) with _ | w
      · simp only [Option.none_orElse]
        rcases hm : bMatch n i vt with _ | _
        · have hsingle : List.find? (bMatch n i) [vt] = none := by
            simp [List.find?, hm]
          rw [hsingle]
          have hne1 : ¬ (vt.num = i) := by
            intro hc
            simp [bMatch, hc] at hm
          have hne2 : ¬ (vt.num + n = i) := by
            intro hc
            simp [bMatch, hc] at hm
          have hne1' : ¬ (i = vt.num) := fun hc => hne1 hc.symm
          have hne2' : ¬ (i = vt.num + n) := fun hc => hne2 hc.symm
          rw [stampDof_snd_char, if_neg hne2', if_neg hne1']
          rfl
        · have hsingle : List.find? (bMatch n i) [vt] = some vt := by
            simp [List.find?, hm]
          rw [hsingle]
          rw [stampDof_snd_char]
          show _ = if vt.num + n = i then 0 else g vt vt.lab * tgv
          by_cases h2 : vt.num + n = i
          · rw [if_pos h2.symm, if_pos h2]
          · have h1 : vt.num = i := by
              rcases of_decide_eq_true hm with h | h
              · exact h
              · exact absurd h h2
            have h2' : ¬ (i = vt.num + n) := fun hc => h2 hc.symm
            rw [if_neg h2', if_neg h2, if_pos h1.symm]
      · simp [hfr]

/-- Every op of the stamping step has a Dirichlet label. -/
theorem stampOps_lab (Th : List StTri) :
    ∀ vt ∈ stampOps Th, isDirichletLab vt.lab := by
  induction Th with
  | nil =>
      intro vt hvt
      simp [stampOps] at hvt
  | cons t rest ih =>
      intro vt hvt
      simp only [stampOps, List.foldr_cons] at hvt
      rcases List.mem_append.mp hvt with h | h
      · have := List.of_mem_filter h
        exact of_decide_eq_true this
      · exact ih vt h

/-- C6: for every assembled system, the Dirichlet stamping loop of
`resolution_Stokes` overwrites, for every corner/midpoint dof `d`
whose boundary label `L` is an inflow or wall code (10, 20 or 40 — not
the outflow code 30), the present diagonal entries of both velocity
components (`(d, d)` and `(d + n, d + n)`) with the penalty `tgv`,
sets the x-velocity right-hand side to `g(label) * tgv` — the
parabolic inflow profile `(1 - y) * (y - 1/2) * 16` for label 10 and 0
for wall labels — and the y-velocity right-hand side to 0. -/
theorem stampBC_dirichlet (Th : List StTri) (n : ℕ) (M : ℕ × ℕ → Option ℚ)
    (b : ℕ → ℚ) (d : ℕ) (L : ℤ) (Y : ℚ)
    (hnum : ∀ vt ∈ stampOps Th, vt.num < n)
    (hd : ∃ vt ∈ stampOps Th, vt.num = d)
    (hcons : ∀ vt ∈ stampOps Th, vt.num = d → vt.lab = L ∧ vt.y = Y)
    (hM1 : (M (d, d)).isSome) (hM2 : (M (d + n, d + n)).isSome) :
    (stampBC Th n M b).1 (d, d) = some tgv ∧
    (stampBC Th n M b).1 (d + n, d + n) = some tgv ∧
    (stampBC Th n M b).2 d =
      (if L = 10 then (1 - Y) * (Y - 1/2) * 16 else 0) * tgv ∧
    (stampBC Th n M b).2 (d + n) = 0 ∧
    isDirichletLab L ∧ L ≠ 30 := by
  obtain ⟨vt0, hvt0, hnum0⟩ := hd
  have hdn : d < n := hnum0 ▸ hnum vt0 hvt0
  rw [stampBC_eq_applyOps]
  refine ⟨?_, ?_, ?_, ?_, ?_, ?_⟩
  · rw [applyOps_fst_char]
    have ht : touchesDiag (stampOps Th) n (d, d) :=
      ⟨vt0, hvt0, Or.inl (by rw [hnum0])⟩
    simp [ht, hM1]
  · rw [applyOps_fst_char]
    have ht : touchesDiag (stampOps Th) n (d + n, d + n) :=
      ⟨vt0, hvt0, Or.inr (by rw [hnum0])⟩
    simp [ht, hM2]
  · rw [applyOps_snd_char]
    have hex : ((stampOps Th).reverse.find? (bMatch n d)).isSome := by
      rw [List.find?_isSome]
      exact ⟨vt0, List.mem_reverse.mpr hvt0, by simp [bMatch, hnum0]⟩
    obtain ⟨w, hw⟩ := Option.isSome_iff_exists.mp hex
    have hwmem : w ∈ stampOps Th :=
      List.mem_reverse.mp (List.mem_of_find?_eq_some hw)
    have hwp : bMatch n d w = true := List.find?_some hw
    have hwnum : w.num = d := by
      rcases of_decide_eq_true hwp with h | h
      · exact h
      · exact absurd h (by omega)
    obtain ⟨hwl, hwy⟩ := hcons w hwmem hwnum
    rw [hw]
    have hne : ¬ (w.num + n = d) := by omega
    show (if w.num + n = d then 0 else g w w.lab * tgv) = _
    rw [if_neg hne, g, hwl, hwy]
  · rw [applyOps_snd_char]
    have hex : ((stampOps Th).reverse.find? (bMatch n (d + n))).isSome := by
      rw [List.find?_isSome]
      exact ⟨vt0, List.mem_reverse.mpr hvt0, by simp [bMatch, hnum0]⟩
    obtain ⟨w, hw⟩ := Option.isSome_iff_exists.mp hex
    have hwmem : w ∈ stampOps Th :=
      List.mem_reverse.mp (List.mem_of_find?_eq_some hw)
    have hwp : bMatch n (d + n) w = true := List.find?_some hw
    have hwlt : w.num < n := hnum w hwmem
    have heq : w.num + n = d + n := by
      rcases of_decide_eq_true hwp with h | h
      · omega
      · exact h
    rw [hw]
    show (if w.num + n = d + n then 0 else g w w.lab * tgv) = _
    rw [if_pos heq]
  · have := (hcons vt0 hvt0 hnum0).1
    exact this ▸ stampOps_lab Th vt0 hvt0
  · have hlab := (hcons vt0 hvt0 hnum0).1 ▸ stampOps_lab Th vt0 hvt0
    rcases hlab with h | h | h <;> omega

/-- The triangle of the C6 witness: corner dof 0 lies on the inflow
boundary (label 10) at height `y = 3/4`; all other dofs are interior. -/
def wTri : StTri :=
  ⟨![⟨0, 3, 0, 10, []⟩, ⟨1, 0, 1, 0, []⟩, ⟨2, 1, 2, 0, []⟩],
   ![⟨1, 1, 3, 0, []⟩, ⟨2, 2, 4, 0, []⟩, ⟨1, 2, 5, 0, []⟩]⟩

/-- Closed witness for C6: stamping the one-triangle mesh `wTri` with
`n = 6` on a fully-present matrix overwrites the diagonal of dof 0's
two velocity components with `tgv` and writes the inflow profile at
`y = 3` times `tgv` into the right-hand side. -/
theorem stampBC_dirichlet_witness :
    ((∀ vt ∈ stampOps [wTri], vt.num < 6) ∧
      (∃ vt ∈ stampOps [wTri], vt.num = 0) ∧
      (∀ vt ∈ stampOps [wTri], vt.num = 0 → vt.lab = 10 ∧ vt.y = 3) ∧
      (((fun _ => some 1 : ℕ × ℕ → Option ℚ) (0, 0)).isSome) ∧
      (((fun _ => some 1 : ℕ × ℕ → Option ℚ) (0 + 6, 0 + 6)).isSome)) ∧
    ((stampBC [wTri] 6 (fun _ => some 1) (fun _ => 0)).1 (0, 0) = some tgv ∧
      (stampBC [wTri] 6 (fun _ => some 1) (fun _ => 0)).1 (0 + 6, 0 + 6) =
        some tgv ∧
      (stampBC [wTri] 6 (fun _ => some 1) (fun _ => 0)).2 0 =
        (if (10 : ℤ) = 10 then (1 - (3 : ℚ)) * (3 - 1/2) * 16 else 0) *
          tgv ∧
      (stampBC [wTri] 6 (fun _ => some 1) (fun _ => 0)).2 (0 + 6) = 0 ∧
      isDirichletLab 10 ∧ (10 : ℤ) ≠ 30) :=
  ⟨⟨by decide, by decide, by decide, by decide, by decide⟩,
    stampBC_dirichlet [wTri] 6 (fun _ => some 1) (fun _ => 0) 0 10 3
      (by decide) (by decide) (by decide) (by decide) (by decide)⟩

/-- C7: the Dirichlet stamping step of `resolution_Stokes` is
idempotent — applied a second time to the matrix map and right-hand
side it produced, with no reassembly in between, it changes nothing:
the targeted diagonal entries already hold `tgv`, and the right-hand
side already holds the boundary values times `tgv`. -/
theorem stampBC_idempotent (Th : List StTri) (n : ℕ)
    (M : ℕ × ℕ → Option ℚ) (b : ℕ → ℚ) :
    stampBC Th n (stampBC Th n M b).1 (stampBC Th n M b).2 =
      stampBC Th n M b := by
  have h1 : stampBC Th n M b = applyOps n (stampOps Th) (M, b) :=
    stampBC_eq_applyOps Th n M b
  have h2 : stampBC Th n (stampBC Th n M b).1 (stampBC Th n M b).2 =
      applyOps n (stampOps Th) (stampBC Th n M b) := by
    rw [stampBC_eq_applyOps]
  rw [h2]
  apply Prod.ext
  · funext key
    rw [applyOps_fst_char]
    by_cases ht : touchesDiag (stampOps Th) n key
    · by_cases hp : (((stampBC Th n M b).1 key).isSome)
      · have hp0 : ((M, b).1 key).isSome := by
          rw [h1, applyOps_isSome] at hp
          exact hp
        rw [h1, applyOps_fst_char]
        simp [ht, hp0, hp]
      · simp [ht, hp]
    · simp [ht]
  · funext i
    rw [applyOps_snd_char]
    rcases hf : (stampOps Th).reverse.find? (bMatch n i) with _ | w
    · simp
    · simp only []
      conv_rhs => rw [h1, applyOps_snd_char, hf]

/-! ### Point location (`RecupVoisins`) -/

/-- A point of the plane (the C++ `R2`). -/
def Vertex.pt (v : Vertex) : ℚ × ℚ := (v.x, v.y)

/-- Modelled from the spec: the `det` helper used by `RecupVoisins`
lives in `R2.hpp`, which is not among the available sources; per spec
§4.2 the point-location test computes the three signed sub-triangle
areas formed by the query point and each pair of triangle corners, so
`det A B C` is the doubled signed area of the triangle `(A, B, C)`,
i.e. the cross product `(B - A) × (C - A)`. -/
def det (A B C : ℚ × ℚ) : ℚ :=
  (B.1 - A.1) * (C.2 - A.2) - (B.2 - A.2) * (C.1 - A.1)

/-- The three-argument `min` of `Fonctions_Utiles.hpp`:
`min(x,y,z) = min(min(x,y),z)`. -/
def triMin (x y z : ℚ) : ℚ := min (min x y) z

/-- The three signed sub-triangle areas `area0, area1, area2` computed
by `RecupVoisins` for a query point `P` against a triangle's corners:
`det(...) * 0.5` with `P` substituted for each corner in turn. -/
def areas (T : Fin 3 → Vertex) (P : ℚ × ℚ) : ℚ × ℚ × ℚ :=
  (det P (T 1).pt (T 2).pt * (1/2),
   det (T 0).pt P (T 2).pt * (1/2),
   det (T 0).pt (T 1).pt P * (1/2))

/-- `rm = min(area0, area1, area2)` of `RecupVoisins`. -/
def rmOf (T : Fin 3 → Vertex) (P : ℚ × ℚ) : ℚ :=
  triMin (areas T P).1 (areas T P).2.1 (areas T P).2.2

/-- The reference-triangle (barycentric) coordinates `PtNv` computed by
`RecupVoisins` through the closed-form inverse of the triangle's affine
map. -/
def baryRef (T : Fin 3 → Vertex) (P : ℚ × ℚ) : ℚ × ℚ :=
  let d := ((T 1).x - (T 0).x) * ((T 2).y - (T 0).y) -
    ((T 1).y - (T 0).y) * ((T 2).x - (T 0).x)
  ((1/d) * (((T 2).y - (T 0).y) * (P.1 - (T 0).x) +
      ((T 0).x - (T 2).x) * (P.2 - (T 0).y)),
   (1/d) * (((T 0).y - (T 1).y) * (P.1 - (T 0).x) +
      ((T 1).x - (T 0).x) * (P.2 - (T 0).y)))

/-- A default triangle, used for the out-of-range reads that would be
undefined behaviour in C++. -/
def dummyTri : Fin 3 → Vertex := fun _ => Vertex.default

/-- The neighbour-scanning loop of `RecupVoisins`: try the adjacency
list in order, returning the first triangle whose three sub-areas have
a non-negative minimum (together with the barycentric coordinates in
it), or `-1` (with the NaN marker, modelled `none`). -/
def recupVoisinsGo (tris : List (Fin 3 → Vertex)) (P : ℚ × ℚ) :
    List ℕ → ℤ × Option (ℚ × ℚ)
  | [] => (-1, none)
  | j :: rest =>
      let T := tris.getD j dummyTri
      if 0 ≤ rmOf T P then ((j : ℤ), some (baryRef T P))
      else recupVoisinsGo tris P rest

/-- Model of `RecupVoisins` (`Fonctions_Utiles.hpp`, lines 159-214):
if the query point's three sub-areas against the starting triangle have
non-negative minimum, return the starting triangle at once; otherwise
scan exactly its adjacency list and return the first containing
neighbour, or `-1` when none contains the point. -/
def RecupVoisins (tris : List (Fin 3 → Vertex)) (voisins : List (List ℕ))
    (triangle : ℕ) (P : ℚ × ℚ) : ℤ × Option (ℚ × ℚ) :=
  let T := tris.getD triangle dummyTri
  if 0 ≤ rmOf T P then ((triangle : ℤ), some (baryRef T P))
  else recupVoisinsGo tris P (voisins.getD triangle [])

/-- The claim-level containment test: all three signed sub-areas are
non-negative (point inside or on the boundary). -/
def containsPt (T : Fin 3 → Vertex) (P : ℚ × ℚ) : Prop :=
  0 ≤ (areas T P).1 ∧ 0 ≤ (areas T P).2.1 ∧ 0 ≤ (areas T P).2.2

instance (T : Fin 3 → Vertex) (P : ℚ × ℚ) : Decidable (containsPt T P) := by
  unfold containsPt
  infer_instance

/-- The source's min-based acceptance test agrees with the claim's
all-three-areas test. -/
theorem rmOf_nonneg_iff (T : Fin 3 → Vertex) (P : ℚ × ℚ) :
    0 ≤ rmOf T P ↔ containsPt T P := by
  unfold rmOf triMin containsPt
  rw [le_min_iff, le_min_iff]
  tauto

theorem recupVoisinsGo_fst (tris : List (Fin 3 → Vertex)) (P : ℚ × ℚ)
    (l : List ℕ) :
    (recupVoisinsGo tris P l).1 =
      match l.find? (fun j => decide (containsPt (tris.getD j dummyTri) P))
        with
      | some j => (j : ℤ)
      | none => -1 := by
  induction l with
  | nil => rfl
  | cons j rest ih =>
      simp only [recupVoisinsGo]
      by_cases h : 0 ≤ rmOf (tris.getD j dummyTri) P
      · have hc : containsPt (tris.getD j dummyTri) P :=
          (rmOf_nonneg_iff _ _).mp h
        rw [List.find?_cons_of_pos _ (by simpa using hc), if_pos h]
      · have hc : ¬ containsPt (tris.getD j dummyTri) P :=
          fun hcc => h ((rmOf_nonneg_iff _ _).mpr hcc)
        rw [List.find?_cons_of_neg _ (by simpa using hc), if_neg h]
        exact ih

/-- C4: `RecupVoisins` returns the starting triangle `t` exactly when
all three signed sub-areas of the query point against `t`'s corners
are non-negative; otherwise it returns the first triangle of `t`'s
adjacency list containing the point by the same test, `-1` when no
listed neighbour contains it, and it never returns a triangle outside
`{t} ∪ voisins[t]`. -/
theorem recupVoisins_spec (tris : List (Fin 3 → Vertex))
    (voisins : List (List ℕ)) (t : ℕ) (P : ℚ × ℚ) :
    (containsPt (tris.getD t dummyTri) P →
      (RecupVoisins tris voisins t P).1 = (t : ℤ)) ∧
    (¬ containsPt (tris.getD t dummyTri) P →
      (RecupVoisins tris voisins t P).1 =
        match (voisins.getD t []).find?
            (fun j => decide (containsPt (tris.getD j dummyTri) P)) with
        | some j => (j : ℤ)
        | none => -1) ∧
    ((RecupVoisins tris voisins t P).1 = (t : ℤ) ∨
      (∃ j ∈ voisins.getD t [], (RecupVoisins tris voisins t P).1 = (j : ℤ)) ∨
      (RecupVoisins tris voisins t P).1 = -1) := by
  refine ⟨?_, ?_, ?_⟩
  · intro hc
    unfold RecupVoisins
    rw [if_pos ((rmOf_nonneg_iff _ _).mpr hc)]
  · intro hc
    unfold RecupVoisins
    rw [if_neg (fun h => hc ((rmOf_nonneg_iff _ _).mp h))]
    exact recupVoisinsGo_fst tris P _
  · by_cases hc : containsPt (tris.getD t dummyTri) P
    · left
      unfold RecupVoisins
      rw [if_pos ((rmOf_nonneg_iff _ _).mpr hc)]
    · have hgo : (RecupVoisins tris voisins t P).1 =
          match (voisins.getD t []).find?
              (fun j => decide (containsPt (tris.getD j dummyTri) P)) with
          | some j => (j : ℤ)
          | none => -1 := by
        unfold RecupVoisins
        rw [if_neg (fun h => hc ((rmOf_nonneg_iff _ _).mp h))]
        exact recupVoisinsGo_fst tris P _
      rcases hf : (voisins.getD t []).find?
          (fun j => decide (containsPt (tris.getD j dummyTri) P)) with _ | j
      · right
        right
        rw [hgo, hf]
      · right
        left
        exact ⟨j, List.mem_of_find?_eq_some hf, by rw [hgo, hf]⟩

/-- The two-triangle mesh of the C4 witness: the square with corners
(0,0), (2,0), (2,2), (0,2) split along the antidiagonal. -/
def wTrisC4 : List (Fin 3 → Vertex) :=
  [![⟨0, 0, 0, 0, []⟩, ⟨2, 0, 1, 0, []⟩, ⟨0, 2, 3, 0, []⟩],
   ![⟨2, 0, 1, 0, []⟩, ⟨2, 2, 2, 0, []⟩, ⟨0, 2, 3, 0, []⟩]]

/-- The adjacency lists of the C4 witness mesh. -/
def wVoisC4 : List (List ℕ) := [[1], [0]]

/-- Closed witness for C4 at the query point `(2, 2)`, which lies in
triangle 1 but not in the starting triangle 0. -/
theorem recupVoisins_spec_witness :
    (containsPt (wTrisC4.getD 0 dummyTri) ((2 : ℚ), (2 : ℚ)) →
      (RecupVoisins wTrisC4 wVoisC4 0 ((2 : ℚ), (2 : ℚ))).1 =
        ((0 : ℕ) : ℤ)) ∧
    (¬ containsPt (wTrisC4.getD 0 dummyTri) ((2 : ℚ), (2 : ℚ)) →
      (RecupVoisins wTrisC4 wVoisC4 0 ((2 : ℚ), (2 : ℚ))).1 =
        match (wVoisC4.getD 0 []).find?
            (fun j => decide (containsPt (wTrisC4.getD j dummyTri)
              ((2 : ℚ), (2 : ℚ)))) with
        | some j => (j : ℤ)
        | none => -1) ∧
    ((RecupVoisins wTrisC4 wVoisC4 0 ((2 : ℚ), (2 : ℚ))).1 =
        ((0 : ℕ) : ℤ) ∨
      (∃ j ∈ wVoisC4.getD 0 [],
        (RecupVoisins wTrisC4 wVoisC4 0 ((2 : ℚ), (2 : ℚ))).1 = (j : ℤ)) ∨
      (RecupVoisins wTrisC4 wVoisC4 0 ((2 : ℚ), (2 : ℚ))).1 = -1) :=
  recupVoisins_spec wTrisC4 wVoisC4 0 ((2 : ℚ), (2 : ℚ))

/-! ### Mesh topology builder (`PointsMil`) -/

/-- A triangle of the topology builder: the three corner `Vertex`
copies installed by `Triangle::build`, and the three midpoint slots,
unset (`none`) until `PointsMil` fills them. -/
structure Tri where
  v : Fin 3 → Vertex
  mil : Fin 3 → Option Vertex
  deriving DecidableEq

/-- The value of a default-constructed `Tri`, used for out-of-range
triangle reads. -/
def Tri.empty : Tri := ⟨fun _ => Vertex.default, fun _ => none⟩

/-- A boundary edge (the `Edge` class): two endpoint vertex copies and
an integer label. -/
structure BEdge where
  v0 : Vertex
  v1 : Vertex
  lab : ℤ
  deriving DecidableEq

/-- The raw mesh as handed to `PointsMil` by the `Mesh2d` constructors:
the original vertex count `nv`, the vertex list (`v`), the triangle
list (`t`, corner copies installed, midpoints unset) and the
boundary-edge list (`e`). -/
structure MeshIn where
  nv : ℕ
  verts : List Vertex
  tris : List Tri
  edges : List BEdge
  deriving DecidableEq

/-- Lookup in an association list (the model of `std::map::find`). -/
def alookup {β : Type} (m : List ((ℕ × ℕ) × β)) (k : ℕ × ℕ) : Option β :=
  (m.find? (fun e => decide (e.1 = k))).map (·.2)

/-- Map-style assignment `m[k] = v` on an association list: overwrite
the entry when the key is present, append it otherwise. -/
def aset {β : Type} (m : List ((ℕ × ℕ) × β)) (k : ℕ × ℕ) (v : β) :
    List ((ℕ × ℕ) × β) :=
  if (alookup m k).isSome then
    m.map (fun e => if e.1 = k then (k, v) else e)
  else m ++ [(k, v)]

/-- The undirected edge key of `PointsMil`: the two endpoint numbers
with the larger one first (`if (s2 > s1) swap(s1, s2)`). -/
def sortKey (s1 s2 : ℕ) : ℕ × ℕ := if s2 > s1 then (s2, s1) else (s1, s2)

/-- The key of the edge opposite local corner `a` of triangle `t`
(corners `(a+1) % 3` and `(a+2) % 3`). -/
def edgeKeyT (t : Tri) (a : ℕ) : ℕ × ℕ :=
  sortKey (t.v ⟨(a + 1) % 3, by omega⟩).num (t.v ⟨(a + 2) % 3, by omega⟩).num

/-- `Vertex::setLab`. -/
def setLab (vt : Vertex) (l : ℤ) : Vertex := { vt with lab := l }

/-- `v[i].setLab(l)` on the global vertex list (no-op when out of
range, where the C++ would be undefined). -/
def setVertLab (verts : List Vertex) (i : ℕ) (l : ℤ) : List Vertex :=
  verts.set i (setLab (verts.getD i Vertex.default) l)

/-- The boundary-edge preprocessing loop of `PointsMil`: build the
edge-label map `ME` keyed by `sortKey`, and (in the `mesh.cpp` and
`part_004` variants, `withVertLab = true`) stamp each boundary edge's
label onto its two endpoints in the global vertex list; the
`mesh_gmsh.cpp` variant leaves the vertex list untouched. -/
def meStage (edges : List BEdge) (verts : List Vertex) (withVertLab : Bool) :
    List ((ℕ × ℕ) × ℤ) × List Vertex :=
  edges.foldl
    (fun acc e =>
      let key := sortKey e.v0.num e.v1.num
      let me' := aset acc.1 key e.lab
      let vs' :=
        if withVertLab then setVertLab (setVertLab acc.2 key.1 e.lab) key.2 e.lab
        else acc.2
      (me', vs'))
    ([], verts)

/-- The state threaded through the triangle loop of `PointsMil` that is
common to all three variants: the running dof counter `n`, the edge map
`M : key ↦ (midpoint number, first-owning triangle)` in insertion
order, the growing vertex list, and the triangle list whose midpoint
slots and corner labels are being filled. -/
structure PMCore where
  n : ℕ
  M : List ((ℕ × ℕ) × (ℕ × ℕ))
  verts : List Vertex
  tris : List Tri

/-- The per-edge work of the `PointsMil` triangle loop shared verbatim
by `mesh.cpp`, `mesh_gmsh.cpp` and `part_004`, for the edge opposite
corner `a` of triangle `k`: compute the sorted key and the midpoint of
the two endpoint positions read from the global vertex list; if the key
is new, record `(n, k)` in `M` and advance `n` (`cree`); number the
midpoint with `M[key].first` and install it in the triangle's slot `a`;
when the key is a boundary edge of `ME`, stamp its label onto the two
corner copies and the midpoint; finally append the midpoint to the
vertex list when it was just created.  (The adjacency bookkeeping,
which differs between the variants, is layered on top of this.) -/
def edgeCore (ME : List ((ℕ × ℕ) × ℤ)) (k a : ℕ) (s : PMCore) : PMCore :=
  let t := s.tris.getD k Tri.empty
  let key := edgeKeyT t a
  let x0 := (s.verts.getD key.1 Vertex.default).x
  let x1 := (s.verts.getD key.2 Vertex.default).x
  let y0 := (s.verts.getD key.1 Vertex.default).y
  let y1 := (s.verts.getD key.2 Vertex.default).y
  let cree := (alookup s.M key).isNone
  let M' := if cree then s.M ++ [(key, (s.n, k))] else s.M
  let n' := if cree then s.n + 1 else s.n
  let midnum := ((alookup M' key).getD (0, 0)).1
  let lab := alookup ME key
  let milieu : Vertex :=
    { x := (x0 + x1) / 2, y := (y0 + y1) / 2, num := midnum,
      lab := lab.getD 0, tri := [] }
  let tMil : Tri := { t with mil := Function.update t.mil ⟨a % 3, by omega⟩ (some milieu) }
  let t' : Tri :=
    match lab with
    | some l =>
        { tMil with
          v := fun i =>
            if i = (⟨(a + 1) % 3, by omega⟩ : Fin 3) ∨
                i = (⟨(a + 2) % 3, by omega⟩ : Fin 3) then
              setLab (tMil.v i) l
            else tMil.v i }
    | none => tMil
  { n := n'
    M := M'
    verts := if cree then s.verts ++ [milieu] else s.verts
    tris := s.tris.set k t' }

/-- Sort ascending and drop duplicates — the effect of the
`std::sort` + `std::unique` + `resize` passes of `PointsMil` on one
adjacency list. -/
def sortUnique (l : List ℕ) : List ℕ := (List.insertionSort (· ≤ ·) l).dedup

/-- `voisins[k].push_back(j); voisins[j].push_back(k);` — the paired
adjacency pushes of `PointsMil`. -/
def pushPair (vs : List (List ℕ)) (k j : ℕ) : List (List ℕ) :=
  let vs1 := vs.set k (vs.getD k [] ++ [j])
  vs1.set j (vs1.getD j [] ++ [k])

/-- The neighbour scan of the `mesh.cpp` `PointsMil` (lines 114-122):
walk every entry of `M` whose key shares an endpoint with the current
edge key and whose first owner is not `k`, and push the pair
`(k, owner)` into both adjacency lists.  (The C++ walks the `std::map`
in key order; the pushes differ from ours only in order, which the
subsequent sort/unique pass erases.) -/
def scanPush (M : List ((ℕ × ℕ) × (ℕ × ℕ))) (key : ℕ × ℕ) (k : ℕ)
    (vs : List (List ℕ)) : List (List ℕ) :=
  M.foldl
    (fun acc e =>
      if (e.1.1 = key.1 ∨ e.1.1 = key.2 ∨ e.1.2 = key.1 ∨ e.1.2 = key.2) ∧
          e.2.2 ≠ k then
        pushPair acc k e.2.2
      else acc)
    vs

/-- One `(k, a)` iteration of the `mesh.cpp` `PointsMil` triangle loop:
the shared per-edge work, then the neighbour scan over the updated map,
then the sort/unique pass over all adjacency lists (which `mesh.cpp`
runs inside the edge loop). -/
def stepCpp (ME : List ((ℕ × ℕ) × ℤ)) (k a : ℕ)
    (st : PMCore × List (List ℕ)) : PMCore × List (List ℕ) :=
  let key := edgeKeyT (st.1.tris.getD k Tri.empty) a
  let c' := edgeCore ME k a st.1
  let vois' := (scanPush c'.M key k st.2).map sortUnique
  (c', vois')

/-- One `(k, a)` iteration of the `mesh_gmsh.cpp` `PointsMil` triangle
loop: when the key is already owned (`else` branch), push the pair
`(k, first owner)` into both adjacency lists; no sort or deduplication
is ever applied. -/
def stepGmsh (ME : List ((ℕ × ℕ) × ℤ)) (k a : ℕ)
    (st : PMCore × List (List ℕ)) : PMCore × List (List ℕ) :=
  let key := edgeKeyT (st.1.tris.getD k Tri.empty) a
  let found := alookup st.1.M key
  let c' := edgeCore ME k a st.1
  let vois' :=
    match found with
    | some mo => pushPair st.2 k mo.2
    | none => st.2
  (c', vois')

/-- Run the double loop `for k in [0, K); for a in [0, 3)` of a
`PointsMil` variant whose per-edge step is `step`. -/
def runSteps {σ : Type} (step : ℕ → ℕ → σ → σ) (K : ℕ) (init : σ) : σ :=
  (List.range K).foldl
    (fun st k => (List.range 3).foldl (fun st2 a => step k a st2) st) init

/-- `Mesh2d::PointsMil` of `mesh.cpp`: boundary preprocessing (with
vertex-label stamping), the triangle loop with the scan-based adjacency
derivation and in-loop sort/unique, returning the final dof count `n`
together with the final core state and adjacency table. -/
def pointsMilCpp (m : MeshIn) : ℕ × PMCore × List (List ℕ) :=
  let pre := meStage m.edges m.verts true
  let init : PMCore := ⟨m.nv, [], pre.2, m.tris⟩
  let fin := runSteps (stepCpp pre.1) m.tris.length
    (init, List.replicate m.tris.length ([] : List ℕ))
  (fin.1.n, fin.1, fin.2)

/-- `Mesh2d::PointsMil` of `mesh_gmsh.cpp`: boundary preprocessing
(without vertex-label stamping), the triangle loop with the
edge-map-based adjacency derivation, no sorting or deduplication. -/
def pointsMilGmsh (m : MeshIn) : ℕ × PMCore × List (List ℕ) :=
  let pre := meStage m.edges m.verts false
  let init : PMCore := ⟨m.nv, [], pre.2, m.tris⟩
  let fin := runSteps (stepGmsh pre.1) m.tris.length
    (init, List.replicate m.tris.length ([] : List ℕ))
  (fin.1.n, fin.1, fin.2)

/-- The per-triangle adjacency derivation of the `part_004` `PointsMil`
(lines 150-157): for each corner `a` of triangle `k`, read the
per-vertex incidence list `v[num].getTri()` from the global vertex list
and push every listed triangle other than `k` into `voisins[k]`. -/
def p4AdjTri (c : PMCore) (k : ℕ) (vs : List (List ℕ)) : List (List ℕ) :=
  (List.range 3).foldl
    (fun acc a =>
      let t := c.tris.getD k Tri.empty
      let num := (t.v ⟨a % 3, by omega⟩).num
      let trilist := (c.verts.getD num Vertex.default).tri
      trilist.foldl
        (fun acc2 j =>
          if j ≠ k then acc2.set k (acc2.getD k [] ++ [j]) else acc2)
        acc)
    vs

/-- `Mesh2d::PointsMil` of `part_004` (the gmsh variant with
corner-incidence adjacency): boundary preprocessing with vertex-label
stamping, the shared per-edge work for the three edges of each
triangle, then the corner-incidence adjacency pushes for that triangle,
and a final sort/unique pass over all adjacency lists.  (The
`triangleSortie` exit-list bookkeeping, which touches no state modelled
here, is omitted.) -/
def pointsMilP4 (m : MeshIn) : ℕ × PMCore × List (List ℕ) :=
  let pre := meStage m.edges m.verts true
  let init : PMCore := ⟨m.nv, [], pre.2, m.tris⟩
  let fin := (List.range m.tris.length).foldl
    (fun st k =>
      let c' := (List.range 3).foldl (fun c a => edgeCore pre.1 k a c) st.1
      (c', p4AdjTri c' k st.2))
    (init, List.replicate m.tris.length ([] : List ℕ))
  (fin.1.n, fin.1, (fin.2.map sortUnique))

/-! ### Association-list and adjacency-list helper lemmas -/

theorem alookup_isSome_iff {β : Type} (m : List ((ℕ × ℕ) × β)) (k : ℕ × ℕ) :
    (alookup m k).isSome ↔ k ∈ m.map (·.1) := by
  have hrw : (alookup m k).isSome =
      (m.find? (fun e => decide (e.1 = k))).isSome := by
    unfold alookup
    rcases hf : m.find? (fun e => decide (e.1 = k)) with _ | e <;>
      rw [hf] <;> rfl
  rw [hrw, List.find?_isSome]
  constructor
  · rintro ⟨e, he, hp⟩
    exact List.mem_map.mpr ⟨e, he, of_decide_eq_true hp⟩
  · intro hm
    obtain ⟨e, he, hek⟩ := List.mem_map.mp hm
    exact ⟨e, he, decide_eq_true hek⟩

theorem alookup_append_of_isSome {β : Type} (m tl : List ((ℕ × ℕ) × β))
    (k : ℕ × ℕ) (h : (alookup m k).isSome) :
    alookup (m ++ tl) k = alookup m k := by
  unfold alookup at h ⊢
  rw [List.find?_append]
  rcases hf : m.find? (fun e => decide (e.1 = k)) with _ | e
  · rw [hf] at h
    simp at h
  · rw [hf]
    rfl

theorem alookup_append_right {β : Type} (m : List ((ℕ × ℕ) × β))
    (k : ℕ × ℕ) (v : β) (h : alookup m k = none) :
    alookup (m ++ [(k, v)]) k = some v := by
  unfold alookup at h ⊢
  rw [List.find?_append]
  rcases hf : m.find? (fun e => decide (e.1 = k)) with _ | e
  · have hone : List.find? (fun e => decide (e.1 = k)) [(k, v)] =
        some (k, v) := by
      simp [List.find?]
    rw [hf, hone]
    rfl
  · rw [hf] at h
    simp at h

theorem alookup_append_ne {β : Type} (m : List ((ℕ × ℕ) × β))
    (k k' : ℕ × ℕ) (v : β) (h : k' ≠ k) :
    alookup (m ++ [(k, v)]) k' = alookup m k' := by
  unfold alookup
  rw [List.find?_append]
  have hone : List.find? (fun e => decide (e.1 = k')) [(k, v)] = none := by
    have hd : decide ((k, v).1 = k') = false := by
      simpa using Ne.symm h
    simp only [List.find?, hd]
  rw [hone]
  rcases hf : m.find? (fun e => decide (e.1 = k')) with _ | e <;>
    rw [hf] <;> rfl

theorem runSteps_succ {σ : Type} (step : ℕ → ℕ → σ → σ) (K : ℕ) (init : σ) :
    runSteps step (K + 1) init =
      step K 2 (step K 1 (step K 0 (runSteps step K init))) := by
  have h1 : List.range (K + 1) = List.range K ++ [K] := List.range_succ K
  unfold runSteps
  rw [h1, List.foldl_append]
  rfl

theorem getD_set_self {α : Type} (l : List α) (i : ℕ) (w d : α)
    (h : i < l.length) : (l.set i w).getD i d = w := by
  rw [List.getD_eq_getElem _ _ (by simpa using h)]
  simp [List.getElem_set]

theorem getD_set_ne {α : Type} (l : List α) (i j : ℕ) (w d : α)
    (h : i ≠ j) : (l.set i w).getD j d = l.getD j d := by
  by_cases hj : j < l.length
  · rw [List.getD_eq_getElem _ _ (by simpa using hj),
      List.getD_eq_getElem _ _ hj]
    simp [List.getElem_set, h]
  · rw [List.getD_eq_default _ _ (by simpa using Nat.le_of_not_lt hj),
      List.getD_eq_default _ _ (Nat.le_of_not_lt hj)]

theorem getD_set_oob {α : Type} (l : List α) (i : ℕ) (w : α)
    (h : ¬ i < l.length) : l.set i w = l :=
  List.set_eq_of_length_le (by omega)

/-- Membership in the adjacency table after a paired push. -/
theorem pushPair_mem (vs : List (List ℕ)) (k j : ℕ)
    (hk : k < vs.length) (hj : j < vs.length) (x y : ℕ) :
    (x ∈ (pushPair vs k j).getD y [] ↔
      x ∈ vs.getD y [] ∨ (y = k ∧ x = j) ∨ (y = j ∧ x = k)) := by
  unfold pushPair
  by_cases hyk : y = k <;> by_cases hyj : y = j
  · subst hyk
    subst hyj
    rw [getD_set_self _ _ _ _ (by simpa using hk),
      getD_set_self _ _ _ _ hk]
    simp only [List.mem_append, List.mem_singleton]
    tauto
  · subst hyk
    rw [getD_set_ne _ _ _ _ _ (fun h => hyj h.symm),
      getD_set_self _ _ _ _ hk]
    simp only [List.mem_append, List.mem_singleton]
    tauto
  · subst hyj
    rw [getD_set_self _ _ _ _ (by simpa using hj),
      getD_set_ne _ _ _ _ _ (fun h => hyk h.symm)]
    simp only [List.mem_append, List.mem_singleton]
    tauto
  · rw [getD_set_ne _ _ _ _ _ (fun h => hyj h.symm),
      getD_set_ne _ _ _ _ _ (fun h => hyk h.symm)]
    tauto

theorem pushPair_length (vs : List (List ℕ)) (k j : ℕ) :
    (pushPair vs k j).length = vs.length := by
  simp [pushPair]

theorem sortUnique_mem (l : List ℕ) (x : ℕ) :
    x ∈ sortUnique l ↔ x ∈ l := by
  unfold sortUnique
  rw [List.mem_dedup, List.mem_insertionSort]

theorem sortUnique_sorted (l : List ℕ) :
    (sortUnique l).Sorted (· ≤ ·) :=
  (List.sorted_insertionSort _ l).sublist (List.dedup_sublist _)

theorem sortUnique_nodup (l : List ℕ) : (sortUnique l).Nodup :=
  List.nodup_dedup _

theorem getD_map_sortUnique (vs : List (List ℕ)) (k : ℕ) (x : ℕ) :
    (x ∈ (vs.map sortUnique).getD k [] ↔ x ∈ vs.getD k []) := by
  by_cases hk : k < vs.length
  · rw [List.getD_eq_getElem _ _ (by simpa using hk),
      List.getD_eq_getElem _ _ hk, List.getElem_map]
    exact sortUnique_mem _ x
  · rw [List.getD_eq_default _ _ (by simpa using Nat.le_of_not_lt hk),
      List.getD_eq_default _ _ (Nat.le_of_not_lt hk)]

/-- Everything about a vertex list except the labels: same length, and
per index the same coordinates, number and incidence list.  The
boundary preprocessing of `PointsMil` only rewrites labels, so it
relates its input and output vertex lists by this predicate. -/
def keepsVerts (verts vs : List Vertex) : Prop :=
  vs.length = verts.length ∧
  ∀ j, ((vs.getD j Vertex.default).x = ((verts.getD j Vertex.default).x) ∧
    (vs.getD j Vertex.default).y = ((verts.getD j Vertex.default).y) ∧
    (vs.getD j Vertex.default).num = ((verts.getD j Vertex.default).num) ∧
    (vs.getD j Vertex.default).tri = ((verts.getD j Vertex.default).tri))

theorem keepsVerts_refl (verts : List Vertex) : keepsVerts verts verts :=
  ⟨rfl, fun _ => ⟨rfl, rfl, rfl, rfl⟩⟩

theorem keepsVerts_setVertLab (verts vs : List Vertex) (i : ℕ) (l : ℤ)
    (h : keepsVerts verts vs) : keepsVerts verts (setVertLab vs i l) := by
  obtain ⟨hlen, hpt⟩ := h
  refine ⟨by simp [setVertLab, hlen], fun j => ?_⟩
  have hstep : ((setVertLab vs i l).getD j Vertex.default).x =
        ((vs.getD j Vertex.default).x) ∧
      ((setVertLab vs i l).getD j Vertex.default).y =
        ((vs.getD j Vertex.default).y) ∧
      ((setVertLab vs i l).getD j Vertex.default).num =
        ((vs.getD j Vertex.default).num) ∧
      ((setVertLab vs i l).getD j Vertex.default).tri =
        ((vs.getD j Vertex.default).tri) := by
    unfold setVertLab
    by_cases hij : i = j
    · subst hij
      by_cases hi : i < vs.length
      · rw [getD_set_self _ _ _ _ hi]
        exact ⟨rfl, rfl, rfl, rfl⟩
      · rw [List.set_eq_of_length_le (by omega)]
        exact ⟨rfl, rfl, rfl, rfl⟩
    · rw [getD_set_ne _ _ _ _ _ hij]
      exact ⟨rfl, rfl, rfl, rfl⟩
  obtain ⟨h1, h2, h3, h4⟩ := hstep
  obtain ⟨g1, g2, g3, g4⟩ := hpt j
  exact ⟨h1.trans g1, h2.trans g2, h3.trans g3, h4.trans g4⟩

/-- The boundary preprocessing keeps the vertex list's length,
coordinates, numbers and incidence lists. -/
theorem meStage_keeps (edges : List BEdge) (verts : List Vertex) (b : Bool) :
    keepsVerts verts (meStage edges verts b).2 := by
  unfold meStage
  have main : ∀ (es : List BEdge) (acc : List ((ℕ × ℕ) × ℤ) × List Vertex),
      keepsVerts verts acc.2 →
      keepsVerts verts
        (es.foldl
          (fun acc e =>
            let key := sortKey e.v0.num e.v1.num
            let me' := aset acc.1 key e.lab
            let vs' :=
              if b then
                setVertLab (setVertLab acc.2 key.1 e.lab) key.2 e.lab
              else acc.2
            (me', vs'))
          acc).2 := by
    intro es
    induction es with
    | nil => exact fun acc h => h
    | cons e rest ih =>
        intro acc h
        refine ih _ ?_
        show keepsVerts verts
          (if b then
            setVertLab (setVertLab acc.2 (sortKey e.v0.num e.v1.num).1 e.lab)
              (sortKey e.v0.num e.v1.num).2 e.lab
          else acc.2)
        by_cases hb : b
        · rw [if_pos hb]
          exact keepsVerts_setVertLab _ _ _ _ (keepsVerts_setVertLab _ _ _ _ h)
        · rw [if_neg hb]
          exact h
  exact main edges ([], verts) (keepsVerts_refl verts)

/-! ### Per-edge step lemmas for `edgeCore` -/

/-- The edge key of `(k, a)` measured on the initial mesh. -/
def keyOf (m : MeshIn) (p : ℕ × ℕ) : ℕ × ℕ :=
  edgeKeyT (m.tris.getD p.1 Tri.empty) p.2

theorem edgeCore_M (ME : List ((ℕ × ℕ) × ℤ)) (k a : ℕ) (s : PMCore) :
    (edgeCore ME k a s).M =
      if (alookup s.M (edgeKeyT (s.tris.getD k Tri.empty) a)).isNone then
        s.M ++ [(edgeKeyT (s.tris.getD k Tri.empty) a, (s.n, k))]
      else s.M := rfl

theorem edgeCore_n (ME : List ((ℕ × ℕ) × ℤ)) (k a : ℕ) (s : PMCore) :
    (edgeCore ME k a s).n =
      if (alookup s.M (edgeKeyT (s.tris.getD k Tri.empty) a)).isNone then
        s.n + 1
      else s.n := rfl

theorem edgeCore_trisLen (ME : List ((ℕ × ℕ) × ℤ)) (k a : ℕ) (s : PMCore) :
    (edgeCore ME k a s).tris.length = s.tris.length := by
  simp [edgeCore]

theorem edgeCore_verts (ME : List ((ℕ × ℕ) × ℤ)) (k a : ℕ) (s : PMCore) :
    ∃ tl, (edgeCore ME k a s).verts = s.verts ++ tl ∧
      ∀ vt ∈ tl, vt.tri = [] := by
  show ∃ tl, (if (alookup s.M (edgeKeyT (s.tris.getD k Tri.empty) a)).isNone
      then s.verts ++ [_] else s.verts) = s.verts ++ tl ∧ _
  by_cases h : (alookup s.M (edgeKeyT (s.tris.getD k Tri.empty) a)).isNone
  · rw [if_pos h]
    refine ⟨_, rfl, ?_⟩
    intro vt hvt
    rw [List.mem_singleton] at hvt
    subst hvt
    rfl
  · rw [if_neg h]
    exact ⟨[], by simp, by simp⟩

theorem edgeCore_tris_getD_ne (ME : List ((ℕ × ℕ) × ℤ)) (k a j : ℕ)
    (s : PMCore) (hj : j ≠ k) :
    (edgeCore ME k a s).tris.getD j Tri.empty = s.tris.getD j Tri.empty := by
  show (s.tris.set k _).getD j Tri.empty = _
  exact getD_set_ne _ _ _ _ _ (fun hc => hj hc.symm)

theorem edgeCore_v_num (ME : List ((ℕ × ℕ) × ℤ)) (k a j : ℕ) (s : PMCore)
    (i : Fin 3) :
    (((edgeCore ME k a s).tris.getD j Tri.empty).v i).num =
      ((s.tris.getD j Tri.empty).v i).num := by
  by_cases hj : j = k
  · subst hj
    by_cases hk : j < s.tris.length
    · show (((s.tris.set j _).getD j Tri.empty).v i).num = _
      rw [getD_set_self _ _ _ _ hk]
      rcases halab : alookup ME (edgeKeyT (s.tris.getD j Tri.empty) a)
        with _ | l
      · rfl
      · show ((if i = _ ∨ i = _ then setLab _ l else _).num) = _
        split <;> rfl
    · show (((s.tris.set j _).getD j Tri.empty).v i).num = _
      rw [getD_set_oob _ _ _ hk]
  · rw [edgeCore_tris_getD_ne _ _ _ _ _ hj]

theorem edgeCore_mil_ne (ME : List ((ℕ × ℕ) × ℤ)) (k a j : ℕ) (s : PMCore)
    (b : Fin 3) (h : j ≠ k ∨ b ≠ (⟨a % 3, by omega⟩ : Fin 3)) :
    ((edgeCore ME k a s).tris.getD j Tri.empty).mil b =
      ((s.tris.getD j Tri.empty).mil b) := by
  by_cases hj : j = k
  · subst hj
    rcases h with h | hb
    · exact absurd rfl h
    by_cases hk : j < s.tris.length
    · show (((s.tris.set j _).getD j Tri.empty).mil b) = _
      rw [getD_set_self _ _ _ _ hk]
      rcases halab : alookup ME (edgeKeyT (s.tris.getD j Tri.empty) a)
        with _ | l
      · show Function.update _ _ _ b = _
        exact Function.update_noteq hb _ _
      · show Function.update _ _ _ b = _
        exact Function.update_noteq hb _ _
    · show (((s.tris.set j _).getD j Tri.empty).mil b) = _
      rw [getD_set_oob _ _ _ hk]
  · rw [edgeCore_tris_getD_ne _ _ _ _ _ hj]

theorem edgeCore_mil_self (ME : List ((ℕ × ℕ) × ℤ)) (k a : ℕ) (s : PMCore)
    (hk : k < s.tris.length) :
    ((edgeCore ME k a s).tris.getD k Tri.empty).mil
        (⟨a % 3, by omega⟩ : Fin 3) =
      some
        { x := ((s.verts.getD (edgeKeyT (s.tris.getD k Tri.empty) a).1
              Vertex.default).x +
            (s.verts.getD (edgeKeyT (s.tris.getD k Tri.empty) a).2
              Vertex.default).x) / 2
          y := ((s.verts.getD (edgeKeyT (s.tris.getD k Tri.empty) a).1
              Vertex.default).y +
            (s.verts.getD (edgeKeyT (s.tris.getD k Tri.empty) a).2
              Vertex.default).y) / 2
          num := ((alookup (edgeCore ME k a s).M
              (edgeKeyT (s.tris.getD k Tri.empty) a)).getD (0, 0)).1
          lab := (alookup ME (edgeKeyT (s.tris.getD k Tri.empty) a)).getD 0
          tri := [] } := by
  show (((s.tris.set k _).getD k Tri.empty).mil _) = _
  rw [getD_set_self _ _ _ _ hk]
  rcases halab : alookup ME (edgeKeyT (s.tris.getD k Tri.empty) a)
    with _ | l
  · show Function.update _ _ _ _ = _
    rw [Function.update_same]
    rfl
  · show Function.update _ _ _ _ = _
    rw [Function.update_same]
    rfl

/-! ### The `PointsMil` loop invariant -/

theorem edgeKeyT_congr (t t' : Tri)
    (h : ∀ i : Fin 3, (t.v i).num = (t'.v i).num) (a : ℕ) :
    edgeKeyT t a = edgeKeyT t' a := by
  unfold edgeKeyT
  rw [h, h]

theorem sortKey_cases (s1 s2 : ℕ) :
    sortKey s1 s2 = (s1, s2) ∨ sortKey s1 s2 = (s2, s1) := by
  unfold sortKey
  by_cases h : s2 > s1
  · right
    rw [if_pos h]
  · left
    rw [if_neg h]

theorem sortKey_lt (s1 s2 n : ℕ) (h1 : s1 < n) (h2 : s2 < n) :
    (sortKey s1 s2).1 < n ∧ (sortKey s1 s2).2 < n := by
  rcases sortKey_cases s1 s2 with h | h <;> rw [h] <;> exact ⟨by omega, by omega⟩

/-- The pairs `(k, a)` processed by the first `K` triangle iterations
of the `PointsMil` loop, in processing order. -/
def donePairs (K : ℕ) : List (ℕ × ℕ) :=
  (List.range K).foldl (fun acc k => acc ++ [(k, 0), (k, 1), (k, 2)]) []

theorem donePairs_succ (K : ℕ) :
    donePairs (K + 1) = donePairs K ++ [(K, 0), (K, 1), (K, 2)] := by
  unfold donePairs
  rw [List.range_succ K, List.foldl_append]
  rfl

theorem donePairs_mem (K : ℕ) (p : ℕ × ℕ) :
    p ∈ donePairs K ↔ p.1 < K ∧ p.2 < 3 := by
  induction K with
  | zero =>
      simp [donePairs]
  | succ K ih =>
      rw [donePairs_succ, List.mem_append, ih]
      constructor
      · rintro (⟨h1, h2⟩ | h)
        · exact ⟨by omega, h2⟩
        · simp only [List.mem_cons, List.mem_singleton,
            List.not_mem_nil, or_false] at h
          rcases h with h | h | h <;> subst h <;> exact ⟨by omega, by omega⟩
      · rintro ⟨h1, h2⟩
        by_cases hK : p.1 < K
        · exact Or.inl ⟨hK, h2⟩
        · have hp1 : p.1 = K := by omega
          right
          rcases p with ⟨p1, p2⟩
          simp only at hp1 h2
          subst hp1
          interval_cases p2 <;> simp

/-- The straightforwardly maintained part of the `PointsMil` loop
invariant, relative to the initial mesh `m`, the post-preprocessing
vertex list `verts1`, and the processed pair list `done`: the keys of
`M` are exactly the keys of the processed edges, without duplicates;
`n` counts `nv` plus the entries of `M`; the recorded midpoint numbers
are `nv, nv+1, …` in insertion order; each entry's first owner is a
triangle of the mesh that has the edge, and no processed pair with the
same key has a smaller triangle index; corner numbers never change;
and the vertex list only grows, by midpoints with empty incidence
lists. -/
structure CoreInvA (m : MeshIn) (verts1 : List Vertex)
    (done : List (ℕ × ℕ)) (s : PMCore) : Prop where
  nodupKeys : (s.M.map (·.1)).Nodup
  keysDone : ∀ key, key ∈ s.M.map (·.1) ↔ ∃ p ∈ done, keyOf m p = key
  nCount : s.n = m.nv + s.M.length
  seqNum : ∀ i (h : i < s.M.length), (s.M.get ⟨i, h⟩).2.1 = m.nv + i
  owners : ∀ e ∈ s.M,
    (∃ b, b < 3 ∧ keyOf m (e.2.2, b) = e.1) ∧ e.2.2 < m.tris.length ∧
      ∀ p ∈ done, keyOf m p = e.1 → e.2.2 ≤ p.1
  trisLen : s.tris.length = m.tris.length
  numStable : ∀ j (i : Fin 3),
    ((s.tris.getD j Tri.empty).v i).num = ((m.tris.getD j Tri.empty).v i).num
  vertsExt : ∃ tl, s.verts = verts1 ++ tl ∧ ∀ vt ∈ tl, vt.tri = []

theorem coreInvA_init (m : MeshIn) (verts1 : List Vertex) :
    CoreInvA m verts1 [] ⟨m.nv, [], verts1, m.tris⟩ := by
  refine ⟨by simp, by simp, by simp, ?_, by simp, rfl, fun j i => rfl,
    ⟨[], by simp, by simp⟩⟩
  intro i h
  simp at h

theorem edgeStepA (m : MeshIn) (verts1 : List Vertex)
    (ME : List ((ℕ × ℕ) × ℤ)) (done : List (ℕ × ℕ)) (s : PMCore) (k a : ℕ)
    (hk : k < m.tris.length) (ha : a < 3)
    (hmono : ∀ p ∈ done, p.1 ≤ k)
    (inv : CoreInvA m verts1 done s) :
    CoreInvA m verts1 (done ++ [(k, a)]) (edgeCore ME k a s) := by
  have hkeyeq : edgeKeyT (s.tris.getD k Tri.empty) a = keyOf m (k, a) :=
    edgeKeyT_congr _ _ (fun i => inv.numStable k i) a
  have hnumStable : ∀ j (i : Fin 3),
      (((edgeCore ME k a s).tris.getD j Tri.empty).v i).num =
        ((m.tris.getD j Tri.empty).v i).num := by
    intro j i
    rw [edgeCore_v_num]
    exact inv.numStable j i
  have htrisLen : (edgeCore ME k a s).tris.length = m.tris.length := by
    rw [edgeCore_trisLen]
    exact inv.trisLen
  have hvertsExt : ∃ tl, (edgeCore ME k a s).verts = verts1 ++ tl ∧
      ∀ vt ∈ tl, vt.tri = [] := by
    obtain ⟨tl2, h2, hn2⟩ := edgeCore_verts ME k a s
    obtain ⟨tl1, h1, hn1⟩ := inv.vertsExt
    refine ⟨tl1 ++ tl2, by rw [h2, h1, List.append_assoc], ?_⟩
    intro vt hvt
    rcases List.mem_append.mp hvt with h | h
    · exact hn1 vt h
    · exact hn2 vt h
  by_cases hnew : (alookup s.M (keyOf m (k, a))).isNone
  · -- the key is new: an entry is appended
    have hnotin : keyOf m (k, a) ∉ s.M.map (·.1) := by
      intro hmem
      rw [← alookup_isSome_iff] at hmem
      rw [Option.isNone_iff_eq_none] at hnew
      rw [hnew] at hmem
      simp at hmem
    have hM : (edgeCore ME k a s).M =
        s.M ++ [(keyOf m (k, a), (s.n, k))] := by
      rw [edgeCore_M, hkeyeq, if_pos hnew]
    have hn : (edgeCore ME k a s).n = s.n + 1 := by
      rw [edgeCore_n, hkeyeq, if_pos hnew]
    refine ⟨?_, ?_, ?_, ?_, ?_, htrisLen, hnumStable, hvertsExt⟩
    · rw [hM, List.map_append]
      rw [List.nodup_append]
      refine ⟨inv.nodupKeys, by simp, ?_⟩
      intro x hx hx'
      simp only [List.map_cons, List.map_nil, List.mem_singleton] at hx'
      subst hx'
      exact hnotin hx
    · intro key
      rw [hM, List.map_append, List.mem_append]
      constructor
      · rintro (h | h)
        · obtain ⟨p, hp, hpk⟩ := (inv.keysDone key).mp h
          exact ⟨p, List.mem_append.mpr (Or.inl hp), hpk⟩
        · refine ⟨(k, a), List.mem_append.mpr (Or.inr (by simp)), ?_⟩
          simp only [List.map_cons, List.map_nil, List.mem_singleton] at h
          exact h.symm
      · rintro ⟨p, hp, hpk⟩
        rcases List.mem_append.mp hp with h | h
        · exact Or.inl ((inv.keysDone key).mpr ⟨p, h, hpk⟩)
        · rw [List.mem_singleton] at h
          subst h
          right
          simp [← hpk]
    · rw [hM, hn, List.length_append, inv.nCount]
      simp [Nat.add_assoc]
    · intro i h
      rw [List.get_of_eq hM]
      have h' : i < (s.M ++ [(keyOf m (k, a), (s.n, k))]).length := by
        rw [← hM]
        exact h
      by_cases hi : i < s.M.length
      · rw [List.get_eq_getElem, List.getElem_append_left hi]
        have hseq := inv.seqNum i hi
        rw [List.get_eq_getElem] at hseq
        exact hseq
      · have hieq : i = s.M.length := by
          rw [List.length_append, List.length_singleton] at h'
          omega
        subst hieq
        rw [List.get_eq_getElem, List.getElem_append_right (le_refl _)]
        simp [inv.nCount]
    · intro e he
      rw [hM] at he
      rcases List.mem_append.mp he with h | h
      · obtain ⟨hex, hlt, hmin⟩ := inv.owners e h
        refine ⟨hex, hlt, ?_⟩
        intro p hp hpk
        rcases List.mem_append.mp hp with hpd | hpd
        · exact hmin p hpd hpk
        · rw [List.mem_singleton] at hpd
          subst hpd
          exfalso
          apply hnotin
          rw [hpk]
          exact List.mem_map.mpr ⟨e, h, rfl⟩
      · rw [List.mem_singleton] at h
        subst h
        refine ⟨⟨a, ha, rfl⟩, hk, ?_⟩
        · intro p hp hpk
          have hpk' : keyOf m p = keyOf m (k, a) := hpk
          rcases List.mem_append.mp hp with hpd | hpd
          · exfalso
            apply hnotin
            rw [← hpk']
            exact ((inv.keysDone _).mpr ⟨p, hpd, rfl⟩)
          · rw [List.mem_singleton] at hpd
            subst hpd
            exact le_refl k
  · -- the key is already present: `M` and `n` are unchanged
    have hM : (edgeCore ME k a s).M = s.M := by
      rw [edgeCore_M, hkeyeq, if_neg hnew]
    have hn : (edgeCore ME k a s).n = s.n := by
      rw [edgeCore_n, hkeyeq, if_neg hnew]
    have hinM : keyOf m (k, a) ∈ s.M.map (·.1) := by
      rw [← alookup_isSome_iff]
      rcases h : alookup s.M (keyOf m (k, a)) with _ | v
      · rw [h] at hnew
        simp at hnew
      · rfl
    refine ⟨?_, ?_, ?_, ?_, ?_, htrisLen, hnumStable, hvertsExt⟩
    · rw [hM]
      exact inv.nodupKeys
    · intro key
      rw [hM]
      constructor
      · intro h
        obtain ⟨p, hp, hpk⟩ := (inv.keysDone key).mp h
        exact ⟨p, List.mem_append.mpr (Or.inl hp), hpk⟩
      · rintro ⟨p, hp, hpk⟩
        rcases List.mem_append.mp hp with h | h
        · exact (inv.keysDone key).mpr ⟨p, h, hpk⟩
        · rw [List.mem_singleton] at h
          subst h
          rw [← hpk]
          exact hinM
    · rw [hM, hn]
      exact inv.nCount
    · intro i h
      rw [List.get_of_eq hM]
      have h' : i < s.M.length := by
        rw [← hM]
        exact h
      have hseq := inv.seqNum i h'
      rw [List.get_eq_getElem] at hseq ⊢
      exact hseq
    · intro e he
      rw [hM] at he
      obtain ⟨hex, hlt, hmin⟩ := inv.owners e he
      refine ⟨hex, hlt, ?_⟩
      intro p hp hpk
      rcases List.mem_append.mp hp with hpd | hpd
      · exact hmin p hpd hpk
      · rw [List.mem_singleton] at hpd
        subst hpd
        obtain ⟨p0, hp0, hp0k⟩ := (inv.keysDone e.1).mp
          (List.mem_map.mpr ⟨e, he, rfl⟩)
        exact le_trans (hmin p0 hp0 hp0k) (hmono p0 hp0)

/-- The core (adjacency-free) part of the `PointsMil` triangle loop. -/
def runCore (ME : List ((ℕ × ℕ) × ℤ)) (K : ℕ) (init : PMCore) : PMCore :=
  runSteps (fun k a c => edgeCore ME k a c) K init

theorem runCore_succ (ME : List ((ℕ × ℕ) × ℤ)) (K : ℕ) (init : PMCore) :
    runCore ME (K + 1) init =
      edgeCore ME K 2 (edgeCore ME K 1 (edgeCore ME K 0
        (runCore ME K init))) :=
  runSteps_succ _ K init

/-- The loop invariant holds after the first `K` triangle iterations. -/
theorem coreInvA_runCore (m : MeshIn) (verts1 : List Vertex)
    (ME : List ((ℕ × ℕ) × ℤ)) (K : ℕ) (hK : K ≤ m.tris.length) :
    CoreInvA m verts1 (donePairs K)
      (runCore ME K ⟨m.nv, [], verts1, m.tris⟩) := by
  induction K with
  | zero => exact coreInvA_init m verts1
  | succ K ih =>
      have hK' : K ≤ m.tris.length := by omega
      have hKlt : K < m.tris.length := by omega
      have inv0 := ih hK'
      have hm0 : ∀ p ∈ donePairs K, p.1 ≤ K := by
        intro p hp
        have := (donePairs_mem K p).mp hp
        omega
      have inv1 := edgeStepA m verts1 ME (donePairs K) _ K 0 hKlt
        (by omega) hm0 inv0
      have hm1 : ∀ p ∈ donePairs K ++ [(K, 0)], p.1 ≤ K := by
        intro p hp
        rcases List.mem_append.mp hp with h | h
        · exact hm0 p h
        · rw [List.mem_singleton] at h
          subst h
          exact le_refl K
      have inv2 := edgeStepA m verts1 ME (donePairs K ++ [(K, 0)]) _ K 1
        hKlt (by omega) hm1 inv1
      have hm2 : ∀ p ∈ donePairs K ++ [(K, 0)] ++ [(K, 1)], p.1 ≤ K := by
        intro p hp
        rcases List.mem_append.mp hp with h | h
        · exact hm1 p h
        · rw [List.mem_singleton] at h
          subst h
          exact le_refl K
      have inv3 := edgeStepA m verts1 ME (donePairs K ++ [(K, 0)] ++ [(K, 1)])
        _ K 2 hKlt (by omega) hm2 inv2
      rw [runCore_succ]
      have hdone : donePairs K ++ [(K, 0)] ++ [(K, 1)] ++ [(K, 2)] =
          donePairs (K + 1) := by
        rw [donePairs_succ]
        simp
      rw [← hdone]
      exact inv3

/-- All edge keys of the mesh's triangles, one per `(k, a)` pair. -/
def allEdgeKeys (m : MeshIn) : List (ℕ × ℕ) :=
  (donePairs m.tris.length).map (keyOf m)

theorem runSteps_stepCpp_fst (ME : List ((ℕ × ℕ) × ℤ)) (K : ℕ)
    (init : PMCore) (v0 : List (List ℕ)) :
    (runSteps (stepCpp ME) K (init, v0)).1 = runCore ME K init := by
  induction K generalizing v0 with
  | zero => rfl
  | succ K ih =>
      rw [runSteps_succ, runCore_succ]
      show edgeCore ME K 2 (edgeCore ME K 1 (edgeCore ME K 0
        (runSteps (stepCpp ME) K (init, v0)).1)) = _
      rw [ih]

theorem runSteps_stepGmsh_fst (ME : List ((ℕ × ℕ) × ℤ)) (K : ℕ)
    (init : PMCore) (v0 : List (List ℕ)) :
    (runSteps (stepGmsh ME) K (init, v0)).1 = runCore ME K init := by
  induction K generalizing v0 with
  | zero => rfl
  | succ K ih =>
      rw [runSteps_succ, runCore_succ]
      show edgeCore ME K 2 (edgeCore ME K 1 (edgeCore ME K 0
        (runSteps (stepGmsh ME) K (init, v0)).1)) = _
      rw [ih]

theorem p4_fold_fst (ME : List ((ℕ × ℕ) × ℤ)) (K : ℕ) (init : PMCore)
    (v0 : List (List ℕ)) :
    ((List.range K).foldl
      (fun st k =>
        let c' := (List.range 3).foldl (fun c a => edgeCore ME k a c) st.1
        (c', p4AdjTri c' k st.2))
      (init, v0)).1 = runCore ME K init := by
  induction K generalizing v0 with
  | zero => rfl
  | succ K ih =>
      rw [List.range_succ K, List.foldl_append, runCore_succ]
      show (List.range 3).foldl (fun c a => edgeCore ME K a c)
        ((List.range K).foldl _ (init, v0)).1 = _
      rw [ih]
      rfl

/-- The two-triangle unit-square mesh of the end-to-end scenario:
corners (0,0), (1,0), (1,1), (0,1), split along the diagonal from
vertex 0 to vertex 2; `nv = 4`, `nbt = 2`, `nbe = 4`, with the four
boundary edges labelled 20, 30, 40, 10. -/
def msq : MeshIn :=
  { nv := 4
    verts := [⟨0, 0, 0, 0, []⟩, ⟨1, 0, 1, 0, []⟩, ⟨1, 1, 2, 0, []⟩,
      ⟨0, 1, 3, 0, []⟩]
    tris :=
      [⟨![⟨0, 0, 0, 0, []⟩, ⟨1, 0, 1, 0, []⟩, ⟨1, 1, 2, 0, []⟩],
        fun _ => none⟩,
       ⟨![⟨0, 0, 0, 0, []⟩, ⟨1, 1, 2, 0, []⟩, ⟨0, 1, 3, 0, []⟩],
        fun _ => none⟩]
    edges :=
      [⟨⟨0, 0, 0, 0, []⟩, ⟨1, 0, 1, 0, []⟩, 20⟩,
       ⟨⟨1, 0, 1, 0, []⟩, ⟨1, 1, 2, 0, []⟩, 30⟩,
       ⟨⟨1, 1, 2, 0, []⟩, ⟨0, 1, 3, 0, []⟩, 40⟩,
       ⟨⟨0, 1, 3, 0, []⟩, ⟨0, 0, 0, 0, []⟩, 10⟩] }

/-- C9: `PointsMil` returns `nv` plus the number of distinct undirected
triangle edges (each of which receives one midpoint); on the
unit-square mesh `msq` it returns `4 + 5 = 9`, and the two triangles
list each other as sole neighbour. -/
theorem pointsMil_count :
    (∀ m : MeshIn,
      (pointsMilCpp m).1 = m.nv + (allEdgeKeys m).toFinset.card) ∧
    (pointsMilCpp msq).1 = 9 ∧ (pointsMilCpp msq).2.2 = [[1], [0]] := by
  refine ⟨?_, by decide, by decide⟩
  intro m
  show (runSteps (stepCpp (meStage m.edges m.verts true).1) m.tris.length
      (⟨m.nv, [], (meStage m.edges m.verts true).2, m.tris⟩,
        List.replicate m.tris.length [])).1.n = _
  rw [runSteps_stepCpp_fst]
  have inv := coreInvA_runCore m (meStage m.edges m.verts true).2
    (meStage m.edges m.verts true).1 m.tris.length (le_refl _)
  rw [inv.nCount]
  congr 1
  have hnodup := inv.nodupKeys
  have hset : ((runCore (meStage m.edges m.verts true).1 m.tris.length
      ⟨m.nv, [], (meStage m.edges m.verts true).2, m.tris⟩).M.map
        (·.1)).toFinset = (allEdgeKeys m).toFinset := by
    ext key
    simp only [List.mem_toFinset]
    rw [inv.keysDone key]
    unfold allEdgeKeys
    rw [List.mem_map]
  calc (runCore (meStage m.edges m.verts true).1 m.tris.length
      ⟨m.nv, [], (meStage m.edges m.verts true).2, m.tris⟩).M.length
      = ((runCore (meStage m.edges m.verts true).1 m.tris.length
        ⟨m.nv, [], (meStage m.edges m.verts true).2, m.tris⟩).M.map
          (·.1)).length := (List.length_map _ _).symm
    _ = ((runCore (meStage m.edges m.verts true).1 m.tris.length
        ⟨m.nv, [], (meStage m.edges m.verts true).2, m.tris⟩).M.map
          (·.1)).toFinset.card := (List.toFinset_card_of_nodup hnodup).symm
    _ = (allEdgeKeys m).toFinset.card := by rw [hset]

/-! ### The adjacency invariant of the `mesh.cpp` variant -/

/-- The adjacency-table invariant common to the variants: one list per
triangle, entries in range, and symmetric membership. -/
structure AdjInv (nbt : ℕ) (vs : List (List ℕ)) : Prop where
  len : vs.length = nbt
  bounded : ∀ k, ∀ j ∈ vs.getD k [], j < nbt
  sym : ∀ k j, (j ∈ vs.getD k [] ↔ k ∈ vs.getD j [])

theorem getD_replicate_nil (n k : ℕ) :
    (List.replicate n ([] : List ℕ)).getD k [] = [] := by
  by_cases hk : k < n
  · rw [List.getD_eq_getElem _ _ (by simpa using hk)]
    simp
  · exact List.getD_eq_default _ _ (by simpa using Nat.le_of_not_lt hk)

theorem adjInv_replicate (nbt : ℕ) :
    AdjInv nbt (List.replicate nbt ([] : List ℕ)) := by
  refine ⟨List.length_replicate _ _, ?_, ?_⟩
  · intro k j hj
    rw [getD_replicate_nil] at hj
    simp at hj
  · intro k j
    rw [getD_replicate_nil, getD_replicate_nil]
    simp

theorem adjInv_pushPair (nbt : ℕ) (vs : List (List ℕ)) (k j : ℕ)
    (hk : k < nbt) (hj : j < nbt) (inv : AdjInv nbt vs) :
    AdjInv nbt (pushPair vs k j) := by
  have hkl : k < vs.length := inv.len ▸ hk
  have hjl : j < vs.length := inv.len ▸ hj
  refine ⟨by rw [pushPair_length, inv.len], ?_, ?_⟩
  · intro y x hx
    rcases (pushPair_mem vs k j hkl hjl x y).mp hx with h | ⟨_, hx⟩ | ⟨_, hx⟩
    · exact inv.bounded y x h
    · exact hx ▸ hj
    · exact hx ▸ hk
  · intro y x
    rw [pushPair_mem vs k j hkl hjl x y, pushPair_mem vs k j hkl hjl y x,
      inv.sym y x]
    tauto

theorem adjInv_scanPush (nbt : ℕ) (M : List ((ℕ × ℕ) × (ℕ × ℕ)))
    (key : ℕ × ℕ) (k : ℕ) (vs : List (List ℕ)) (hk : k < nbt)
    (hM : ∀ e ∈ M, e.2.2 < nbt) (inv : AdjInv nbt vs) :
    AdjInv nbt (scanPush M key k vs) := by
  induction M generalizing vs with
  | nil => exact inv
  | cons e rest ih =>
      have hM' : ∀ e ∈ rest, e.2.2 < nbt :=
        fun e' he' => hM e' (List.mem_cons_of_mem _ he')
      show AdjInv nbt (scanPush rest key k
        (if (e.1.1 = key.1 ∨ e.1.1 = key.2 ∨ e.1.2 = key.1 ∨
            e.1.2 = key.2) ∧ e.2.2 ≠ k then pushPair vs k e.2.2 else vs))
      by_cases hcond : (e.1.1 = key.1 ∨ e.1.1 = key.2 ∨ e.1.2 = key.1 ∨
          e.1.2 = key.2) ∧ e.2.2 ≠ k
      · rw [if_pos hcond]
        exact ih _ hM' (adjInv_pushPair nbt vs k e.2.2 hk
          (hM e (List.mem_cons_self _ _)) inv)
      · rw [if_neg hcond]
        exact ih _ hM' inv

theorem adjInv_mapSortUnique (nbt : ℕ) (vs : List (List ℕ))
    (inv : AdjInv nbt vs) :
    AdjInv nbt (vs.map sortUnique) ∧
    ∀ l ∈ vs.map sortUnique, l.Sorted (· ≤ ·) ∧ l.Nodup := by
  constructor
  · refine ⟨by rw [List.length_map, inv.len], ?_, ?_⟩
    · intro y x hx
      exact inv.bounded y x ((getD_map_sortUnique vs y x).mp hx)
    · intro y x
      rw [getD_map_sortUnique, getD_map_sortUnique, inv.sym]
  · intro l hl
    obtain ⟨l0, _, hmap⟩ := List.mem_map.mp hl
    exact hmap ▸ ⟨sortUnique_sorted l0, sortUnique_nodup l0⟩

theorem stepCpp_fst (ME : List ((ℕ × ℕ) × ℤ)) (k a : ℕ)
    (st : PMCore × List (List ℕ)) :
    (stepCpp ME k a st).1 = edgeCore ME k a st.1 := rfl

theorem stepCpp_snd (ME : List ((ℕ × ℕ) × ℤ)) (k a : ℕ)
    (st : PMCore × List (List ℕ)) :
    (stepCpp ME k a st).2 =
      (scanPush (edgeCore ME k a st.1).M
        (edgeKeyT (st.1.tris.getD k Tri.empty) a) k st.2).map sortUnique :=
  rfl

/-- One `(k, a)` step of the `mesh.cpp` loop preserves the adjacency
invariant and (re-)establishes sortedness and freedom from
duplicates. -/
theorem cppStep_preserves (m : MeshIn) (verts1 : List Vertex)
    (ME : List ((ℕ × ℕ) × ℤ)) (done : List (ℕ × ℕ)) (core : PMCore)
    (vs : List (List ℕ)) (k a : ℕ)
    (hk : k < m.tris.length) (ha : a < 3)
    (hmono : ∀ p ∈ done, p.1 ≤ k)
    (invA : CoreInvA m verts1 done core)
    (adj : AdjInv m.tris.length vs) :
    AdjInv m.tris.length (stepCpp ME k a (core, vs)).2 ∧
    ∀ l ∈ (stepCpp ME k a (core, vs)).2, l.Sorted (· ≤ ·) ∧ l.Nodup := by
  have invA' := edgeStepA m verts1 ME done core k a hk ha hmono invA
  have hown : ∀ e ∈ (edgeCore ME k a core).M, e.2.2 < m.tris.length :=
    fun e he => (invA'.owners e he).2.1
  rw [stepCpp_snd]
  exact adjInv_mapSortUnique _ _
    (adjInv_scanPush m.tris.length _ _ k vs hk hown adj)

/-- The adjacency table of the `mesh.cpp` loop satisfies the invariant
after every complete prefix of triangle iterations. -/
theorem cppAdjInv_runSteps (m : MeshIn) (verts1 : List Vertex)
    (ME : List ((ℕ × ℕ) × ℤ)) (K : ℕ) (hK : K ≤ m.tris.length) :
    AdjInv m.tris.length
      (runSteps (stepCpp ME) K
        (⟨m.nv, [], verts1, m.tris⟩,
          List.replicate m.tris.length ([] : List ℕ))).2 ∧
    ∀ l ∈ (runSteps (stepCpp ME) K
        (⟨m.nv, [], verts1, m.tris⟩,
          List.replicate m.tris.length ([] : List ℕ))).2,
      l.Sorted (· ≤ ·) ∧ l.Nodup := by
  induction K with
  | zero =>
      refine ⟨adjInv_replicate _, ?_⟩
      intro l hl
      have := List.eq_of_mem_replicate hl
      subst this
      exact ⟨List.sorted_nil, List.nodup_nil⟩
  | succ K ih =>
      obtain ⟨adj0, _⟩ := ih (by omega)
      have hKlt : K < m.tris.length := by omega
      have hcore : (runSteps (stepCpp ME) K
          (⟨m.nv, [], verts1, m.tris⟩,
            List.replicate m.tris.length ([] : List ℕ))).1 =
          runCore ME K ⟨m.nv, [], verts1, m.tris⟩ :=
        runSteps_stepCpp_fst ME K _ _
      have inv0 : CoreInvA m verts1 (donePairs K)
          (runSteps (stepCpp ME) K
            (⟨m.nv, [], verts1, m.tris⟩,
              List.replicate m.tris.length ([] : List ℕ))).1 := by
        rw [hcore]
        exact coreInvA_runCore m verts1 ME K (by omega)
      have hm0 : ∀ p ∈ donePairs K, p.1 ≤ K := by
        intro p hp
        have := (donePairs_mem K p).mp hp
        omega
      have hm1 : ∀ p ∈ donePairs K ++ [(K, 0)], p.1 ≤ K := by
        intro p hp
        rcases List.mem_append.mp hp with h | h
        · exact hm0 p h
        · rw [List.mem_singleton] at h
          subst h
          exact le_refl K
      have hm2 : ∀ p ∈ donePairs K ++ [(K, 0)] ++ [(K, 1)], p.1 ≤ K := by
        intro p hp
        rcases List.mem_append.mp hp with h | h
        · exact hm1 p h
        · rw [List.mem_singleton] at h
          subst h
          exact le_refl K
      have step1 := cppStep_preserves m verts1 ME (donePairs K) _ _ K 0 hKlt
        (by omega) hm0 inv0 adj0
      have inv1 := edgeStepA m verts1 ME (donePairs K) _ K 0 hKlt (by omega)
        hm0 inv0
      have step2 := cppStep_preserves m verts1 ME (donePairs K ++ [(K, 0)])
        _ _ K 1 hKlt (by omega) hm1 inv1 step1.1
      have inv2 := edgeStepA m verts1 ME (donePairs K ++ [(K, 0)]) _ K 1
        hKlt (by omega) hm1 inv1
      have step3 := cppStep_preserves m verts1 ME
        (donePairs K ++ [(K, 0)] ++ [(K, 1)]) _ _ K 2 hKlt (by omega) hm2
        inv2 step2.1
      rw [runSteps_succ]
      exact step3

/-- C2: after the `mesh.cpp` `PointsMil` runs on any mesh, the triangle
adjacency table `voisins` is symmetric — `j ∈ voisins[k]` iff
`k ∈ voisins[j]` — and every adjacency list is sorted in increasing
order with no duplicate entries. -/
theorem pointsMil_voisins_inv (m : MeshIn) :
    (∀ k j, (j ∈ (pointsMilCpp m).2.2.getD k [] ↔
      k ∈ (pointsMilCpp m).2.2.getD j [])) ∧
    ∀ l ∈ (pointsMilCpp m).2.2, l.Sorted (· ≤ ·) ∧ l.Nodup := by
  have h := cppAdjInv_runSteps m (meStage m.edges m.verts true).2
    (meStage m.edges m.verts true).1 m.tris.length (le_refl _)
  exact ⟨h.1.sym, h.2⟩

/-! ### The midpoint invariant and C1 -/

/-- The constructor-established well-formedness of the raw mesh: the
vertex list covers `nv` entries and every triangle corner's global
number lies below `nv`. -/
def WFmesh (m : MeshIn) : Prop :=
  m.nv ≤ m.verts.length ∧
  ∀ k, k < m.tris.length → ∀ i : Fin 3,
    ((m.tris.getD k Tri.empty).v i).num < m.nv

instance (m : MeshIn) : Decidable (WFmesh m) := by
  unfold WFmesh
  infer_instance

/-- The midpoint part of the `PointsMil` loop invariant: every
processed `(k, a)` slot holds a midpoint vertex numbered by the `M`
entry of its key and positioned at the average of the key's two
endpoint positions in the preprocessed vertex list. -/
structure CoreInvB (m : MeshIn) (verts1 : List Vertex)
    (done : List (ℕ × ℕ)) (s : PMCore) : Prop where
  milChar : ∀ p ∈ done, ∃ mv,
    ((s.tris.getD p.1 Tri.empty).mil (⟨p.2 % 3, by omega⟩ : Fin 3)) =
      some mv ∧
    mv.num = ((alookup s.M (keyOf m p)).getD (0, 0)).1 ∧
    mv.x = ((verts1.getD (keyOf m p).1 Vertex.default).x +
      (verts1.getD (keyOf m p).2 Vertex.default).x) / 2 ∧
    mv.y = ((verts1.getD (keyOf m p).1 Vertex.default).y +
      (verts1.getD (keyOf m p).2 Vertex.default).y) / 2

theorem keyOf_lt_nv (m : MeshIn) (k a : ℕ) (hk : k < m.tris.length)
    (hwf : WFmesh m) :
    (keyOf m (k, a)).1 < m.nv ∧ (keyOf m (k, a)).2 < m.nv := by
  unfold keyOf edgeKeyT
  exact sortKey_lt _ _ _ (hwf.2 k hk _) (hwf.2 k hk _)

theorem edgeStepB (m : MeshIn) (verts1 : List Vertex)
    (ME : List ((ℕ × ℕ) × ℤ)) (done : List (ℕ × ℕ)) (s : PMCore) (k a : ℕ)
    (hwf : WFmesh m) (hv1len : m.nv ≤ verts1.length)
    (hk : k < m.tris.length) (_ha : a < 3)
    (hnodup : ∀ p ∈ done, ¬ (p.1 = k ∧ p.2 % 3 = a % 3))
    (invA : CoreInvA m verts1 done s)
    (invB : CoreInvB m verts1 done s) :
    CoreInvB m verts1 (done ++ [(k, a)]) (edgeCore ME k a s) := by
  have hkeyeq : edgeKeyT (s.tris.getD k Tri.empty) a = keyOf m (k, a) :=
    edgeKeyT_congr _ _ (fun i => invA.numStable k i) a
  constructor
  intro p hp
  rcases List.mem_append.mp hp with hpd | hpd
  · obtain ⟨mv, hslot, hnum, hx, hy⟩ := invB.milChar p hpd
    have hne : p.1 ≠ k ∨
        (⟨p.2 % 3, by omega⟩ : Fin 3) ≠ (⟨a % 3, by omega⟩ : Fin 3) := by
      by_cases h1 : p.1 = k
      · right
        intro hfe
        exact hnodup p hpd ⟨h1, by simpa using congrArg Fin.val hfe⟩
      · exact Or.inl h1
    have hstable : alookup (edgeCore ME k a s).M (keyOf m p) =
        alookup s.M (keyOf m p) := by
      have hsome : (alookup s.M (keyOf m p)).isSome := by
        rw [alookup_isSome_iff]
        exact (invA.keysDone _).mpr ⟨p, hpd, rfl⟩
      rw [edgeCore_M]
      by_cases hcr : (alookup s.M
          (edgeKeyT (s.tris.getD k Tri.empty) a)).isNone
      · rw [if_pos hcr]
        exact alookup_append_of_isSome _ _ _ hsome
      · rw [if_neg hcr]
    refine ⟨mv, ?_, by rw [hstable]; exact hnum, hx, hy⟩
    rw [edgeCore_mil_ne _ _ _ _ _ _ hne]
    exact hslot
  · rw [List.mem_singleton] at hpd
    subst hpd
    have hk' : k < s.tris.length := by
      rw [invA.trisLen]
      exact hk
    have hself := edgeCore_mil_self ME k a s hk'
    obtain ⟨tl, hverts, -⟩ := invA.vertsExt
    have hc1 : (keyOf m (k, a)).1 < m.nv := (keyOf_lt_nv m k a hk hwf).1
    have hc2 : (keyOf m (k, a)).2 < m.nv := (keyOf_lt_nv m k a hk hwf).2
    have hg1x : s.verts.getD (keyOf m (k, a)).1 Vertex.default =
        verts1.getD (keyOf m (k, a)).1 Vertex.default := by
      rw [hverts]
      exact List.getD_append _ _ _ _ (by omega)
    have hg2x : s.verts.getD (keyOf m (k, a)).2 Vertex.default =
        verts1.getD (keyOf m (k, a)).2 Vertex.default := by
      rw [hverts]
      exact List.getD_append _ _ _ _ (by omega)
    rw [hkeyeq] at hself
    refine ⟨_, hself, ?_, ?_, ?_⟩
    · rfl
    · show ((s.verts.getD (keyOf m (k, a)).1 Vertex.default).x +
        (s.verts.getD (keyOf m (k, a)).2 Vertex.default).x) / 2 = _
      rw [hg1x, hg2x]
    · show ((s.verts.getD (keyOf m (k, a)).1 Vertex.default).y +
        (s.verts.getD (keyOf m (k, a)).2 Vertex.default).y) / 2 = _
      rw [hg1x, hg2x]

theorem coreInvB_runCore (m : MeshIn) (verts1 : List Vertex)
    (ME : List ((ℕ × ℕ) × ℤ)) (hwf : WFmesh m)
    (hv1len : m.nv ≤ verts1.length) (K : ℕ) (hK : K ≤ m.tris.length) :
    CoreInvB m verts1 (donePairs K)
      (runCore ME K ⟨m.nv, [], verts1, m.tris⟩) := by
  induction K with
  | zero =>
      constructor
      intro p hp
      rw [donePairs_mem] at hp
      omega
  | succ K ih =>
      have hKlt : K < m.tris.length := by omega
      have invA0 := coreInvA_runCore m verts1 ME K (by omega)
      have invB0 := ih (by omega)
      have hm0 : ∀ p ∈ donePairs K, p.1 ≤ K := by
        intro p hp
        have := (donePairs_mem K p).mp hp
        omega
      have hm1 : ∀ p ∈ donePairs K ++ [(K, 0)], p.1 ≤ K := by
        intro p hp
        rcases List.mem_append.mp hp with h | h
        · exact hm0 p h
        · rw [List.mem_singleton] at h
          subst h
          exact le_refl K
      have hm2 : ∀ p ∈ donePairs K ++ [(K, 0)] ++ [(K, 1)], p.1 ≤ K := by
        intro p hp
        rcases List.mem_append.mp hp with h | h
        · exact hm1 p h
        · rw [List.mem_singleton] at h
          subst h
          exact le_refl K
      have hnd0 : ∀ p ∈ donePairs K, ¬ (p.1 = K ∧ p.2 % 3 = 0 % 3) := by
        intro p hp hc
        have := (donePairs_mem K p).mp hp
        omega
      have hnd1 : ∀ p ∈ donePairs K ++ [(K, 0)],
          ¬ (p.1 = K ∧ p.2 % 3 = 1 % 3) := by
        intro p hp hc
        rcases List.mem_append.mp hp with h | h
        · have := (donePairs_mem K p).mp h
          omega
        · rw [List.mem_singleton] at h
          subst h
          omega
      have hnd2 : ∀ p ∈ donePairs K ++ [(K, 0)] ++ [(K, 1)],
          ¬ (p.1 = K ∧ p.2 % 3 = 2 % 3) := by
        intro p hp hc
        rcases List.mem_append.mp hp with h | h
        · rcases List.mem_append.mp h with h' | h'
          · have := (donePairs_mem K p).mp h'
            omega
          · rw [List.mem_singleton] at h'
            subst h'
            omega
        · rw [List.mem_singleton] at h
          subst h
          omega
      have invA1 := edgeStepA m verts1 ME (donePairs K) _ K 0 hKlt
        (by omega) hm0 invA0
      have invB1 := edgeStepB m verts1 ME (donePairs K) _ K 0 hwf hv1len
        hKlt (by omega) hnd0 invA0 invB0
      have invA2 := edgeStepA m verts1 ME (donePairs K ++ [(K, 0)]) _ K 1
        hKlt (by omega) hm1 invA1
      have invB2 := edgeStepB m verts1 ME (donePairs K ++ [(K, 0)]) _ K 1
        hwf hv1len hKlt (by omega) hnd1 invA1 invB1
      have invB3 := edgeStepB m verts1 ME
        (donePairs K ++ [(K, 0)] ++ [(K, 1)]) _ K 2 hwf hv1len hKlt
        (by omega) hnd2 invA2 invB2
      rw [runCore_succ]
      have hdone : donePairs K ++ [(K, 0)] ++ [(K, 1)] ++ [(K, 2)] =
          donePairs (K + 1) := by
        rw [donePairs_succ]
        simp
      rw [← hdone]
      exact invB3

set_option maxHeartbeats 2000000 in
/-- C1: after the `mesh.cpp` `PointsMil` runs on a well-formed mesh,
any two triangle edges with the same undirected key hold midpoint
vertices with the same global number and the same coordinates, equal to
the arithmetic mean of the shared edge's two endpoint coordinates;
moreover the recorded midpoint numbers are `nv, nv + 1, …` in creation
order, and each edge's midpoint entry is owned by the first triangle
(in loop order) to reach the edge. -/
theorem pointsMil_midpoint_sharing (m : MeshIn)
    (hwf : WFmesh m)
    (hcc : ∀ k, k < m.tris.length → ∀ i : Fin 3,
      ((m.tris.getD k Tri.empty).v i).x =
        (m.verts.getD ((m.tris.getD k Tri.empty).v i).num Vertex.default).x ∧
      ((m.tris.getD k Tri.empty).v i).y =
        (m.verts.getD ((m.tris.getD k Tri.empty).v i).num
          Vertex.default).y) :
    (∀ k a j b, k < m.tris.length → a < 3 → j < m.tris.length → b < 3 →
      keyOf m (k, a) = keyOf m (j, b) →
      ∃ mv1 mv2,
        ((pointsMilCpp m).2.1.tris.getD k Tri.empty).mil
          (⟨a % 3, by omega⟩ : Fin 3) = some mv1 ∧
        ((pointsMilCpp m).2.1.tris.getD j Tri.empty).mil
          (⟨b % 3, by omega⟩ : Fin 3) = some mv2 ∧
        mv1.num = mv2.num ∧ mv1.x = mv2.x ∧ mv1.y = mv2.y ∧
        mv1.x = (((m.tris.getD k Tri.empty).v
            (⟨(a + 1) % 3, by omega⟩ : Fin 3)).x +
          ((m.tris.getD k Tri.empty).v
            (⟨(a + 2) % 3, by omega⟩ : Fin 3)).x) / 2 ∧
        mv1.y = (((m.tris.getD k Tri.empty).v
            (⟨(a + 1) % 3, by omega⟩ : Fin 3)).y +
          ((m.tris.getD k Tri.empty).v
            (⟨(a + 2) % 3, by omega⟩ : Fin 3)).y) / 2) ∧
    (∀ i (h : i < (pointsMilCpp m).2.1.M.length),
      ((pointsMilCpp m).2.1.M.get ⟨i, h⟩).2.1 = m.nv + i) ∧
    (∀ e ∈ (pointsMilCpp m).2.1.M,
      (∃ b, b < 3 ∧ keyOf m (e.2.2, b) = e.1) ∧
      ∀ k' a', k' < e.2.2 → a' < 3 → keyOf m (k', a') ≠ e.1) := by
  have hbridge : (pointsMilCpp m).2.1 =
      runCore (meStage m.edges m.verts true).1 m.tris.length
        ⟨m.nv, [], (meStage m.edges m.verts true).2, m.tris⟩ :=
    runSteps_stepCpp_fst _ _ _ _
  have hkeep := meStage_keeps m.edges m.verts true
  have hv1len : m.nv ≤ (meStage m.edges m.verts true).2.length := by
    rw [hkeep.1]
    exact hwf.1
  have invA := coreInvA_runCore m (meStage m.edges m.verts true).2
    (meStage m.edges m.verts true).1 m.tris.length (le_refl _)
  have invB := coreInvB_runCore m (meStage m.edges m.verts true).2
    (meStage m.edges m.verts true).1 hwf hv1len m.tris.length (le_refl _)
  have hMeq : (pointsMilCpp m).2.1.M =
      (runCore (meStage m.edges m.verts true).1 m.tris.length
        ⟨m.nv, [], (meStage m.edges m.verts true).2, m.tris⟩).M :=
    congrArg PMCore.M hbridge
  refine ⟨?_, ?_, ?_⟩
  · intro k a j b hk ha hj hb hkey
    obtain ⟨mv1, hs1, hn1, hx1, hy1⟩ :=
      invB.milChar (k, a) ((donePairs_mem _ _).mpr ⟨hk, ha⟩)
    obtain ⟨mv2, hs2, hn2, hx2, hy2⟩ :=
      invB.milChar (j, b) ((donePairs_mem _ _).mpr ⟨hj, hb⟩)
    have hxv : ∀ idx,
        ((meStage m.edges m.verts true).2.getD idx Vertex.default).x =
          (m.verts.getD idx Vertex.default).x :=
      fun idx => (hkeep.2 idx).1
    have hyv : ∀ idx,
        ((meStage m.edges m.verts true).2.getD idx Vertex.default).y =
          (m.verts.getD idx Vertex.default).y :=
      fun idx => (hkeep.2 idx).2.1
    have hccx1 := (hcc k hk (⟨(a + 1) % 3, by omega⟩ : Fin 3)).1
    have hccx2 := (hcc k hk (⟨(a + 2) % 3, by omega⟩ : Fin 3)).1
    have hccy1 := (hcc k hk (⟨(a + 1) % 3, by omega⟩ : Fin 3)).2
    have hccy2 := (hcc k hk (⟨(a + 2) % 3, by omega⟩ : Fin 3)).2
    have hkuf : keyOf m (k, a) =
        sortKey ((m.tris.getD k Tri.empty).v
            (⟨(a + 1) % 3, by omega⟩ : Fin 3)).num
          ((m.tris.getD k Tri.empty).v
            (⟨(a + 2) % 3, by omega⟩ : Fin 3)).num := rfl
    refine ⟨mv1, mv2, ?_, ?_, hn1.trans (by rw [hkey]; exact hn2.symm),
      hx1.trans (by rw [hkey]; exact hx2.symm),
      hy1.trans (by rw [hkey]; exact hy2.symm), ?_, ?_⟩
    · rw [hbridge]
      exact hs1
    · rw [hbridge]
      exact hs2
    · rcases sortKey_cases ((m.tris.getD k Tri.empty).v
          (⟨(a + 1) % 3, by omega⟩ : Fin 3)).num
          ((m.tris.getD k Tri.empty).v
            (⟨(a + 2) % 3, by omega⟩ : Fin 3)).num with hc | hc
      · have e1 : (keyOf m (k, a)).1 = ((m.tris.getD k Tri.empty).v
            (⟨(a + 1) % 3, by omega⟩ : Fin 3)).num := by rw [hkuf, hc]
        have e2 : (keyOf m (k, a)).2 = ((m.tris.getD k Tri.empty).v
            (⟨(a + 2) % 3, by omega⟩ : Fin 3)).num := by rw [hkuf, hc]
        rw [hx1, e1, e2, hxv, hxv, hccx1, hccx2]
      · have e1 : (keyOf m (k, a)).1 = ((m.tris.getD k Tri.empty).v
            (⟨(a + 2) % 3, by omega⟩ : Fin 3)).num := by rw [hkuf, hc]
        have e2 : (keyOf m (k, a)).2 = ((m.tris.getD k Tri.empty).v
            (⟨(a + 1) % 3, by omega⟩ : Fin 3)).num := by rw [hkuf, hc]
        rw [hx1, e1, e2, hxv, hxv, hccx1, hccx2, add_comm]
    · rcases sortKey_cases ((m.tris.getD k Tri.empty).v
          (⟨(a + 1) % 3, by omega⟩ : Fin 3)).num
          ((m.tris.getD k Tri.empty).v
            (⟨(a + 2) % 3, by omega⟩ : Fin 3)).num with hc | hc
      · have e1 : (keyOf m (k, a)).1 = ((m.tris.getD k Tri.empty).v
            (⟨(a + 1) % 3, by omega⟩ : Fin 3)).num := by rw [hkuf, hc]
        have e2 : (keyOf m (k, a)).2 = ((m.tris.getD k Tri.empty).v
            (⟨(a + 2) % 3, by omega⟩ : Fin 3)).num := by rw [hkuf, hc]
        rw [hy1, e1, e2, hyv, hyv, hccy1, hccy2]
      · have e1 : (keyOf m (k, a)).1 = ((m.tris.getD k Tri.empty).v
            (⟨(a + 2) % 3, by omega⟩ : Fin 3)).num := by rw [hkuf, hc]
        have e2 : (keyOf m (k, a)).2 = ((m.tris.getD k Tri.empty).v
            (⟨(a + 1) % 3, by omega⟩ : Fin 3)).num := by rw [hkuf, hc]
        rw [hy1, e1, e2, hyv, hyv, hccy1, hccy2, add_comm]
  · intro i h
    rw [List.get_of_eq hMeq]
    have h' : i < (runCore (meStage m.edges m.verts true).1 m.tris.length
        ⟨m.nv, [], (meStage m.edges m.verts true).2, m.tris⟩).M.length := by
      rw [← hMeq]
      exact h
    have hseq := invA.seqNum i h'
    rw [List.get_eq_getElem] at hseq ⊢
    exact hseq
  · intro e he
    rw [hMeq] at he
    obtain ⟨hex, hlt, hmin⟩ := invA.owners e he
    refine ⟨hex, ?_⟩
    intro k' a' hk' ha' hkeq
    have hpmem : (k', a') ∈ donePairs m.tris.length :=
      (donePairs_mem _ _).mpr ⟨by omega, ha'⟩
    have := hmin (k', a') hpmem hkeq
    omega

/-- Closed witness for C1: the unit-square mesh `msq` is well formed
and its two triangles share their diagonal-edge midpoints. -/
theorem pointsMil_midpoint_sharing_witness :
    (WFmesh msq ∧
      ∀ k, k < msq.tris.length → ∀ i : Fin 3,
        ((msq.tris.getD k Tri.empty).v i).x =
          (msq.verts.getD ((msq.tris.getD k Tri.empty).v i).num
            Vertex.default).x ∧
        ((msq.tris.getD k Tri.empty).v i).y =
          (msq.verts.getD ((msq.tris.getD k Tri.empty).v i).num
            Vertex.default).y) ∧
    ((∀ k a j b, k < msq.tris.length → a < 3 → j < msq.tris.length →
      b < 3 → keyOf msq (k, a) = keyOf msq (j, b) →
      ∃ mv1 mv2,
        ((pointsMilCpp msq).2.1.tris.getD k Tri.empty).mil
          (⟨a % 3, by omega⟩ : Fin 3) = some mv1 ∧
        ((pointsMilCpp msq).2.1.tris.getD j Tri.empty).mil
          (⟨b % 3, by omega⟩ : Fin 3) = some mv2 ∧
        mv1.num = mv2.num ∧ mv1.x = mv2.x ∧ mv1.y = mv2.y ∧
        mv1.x = (((msq.tris.getD k Tri.empty).v
            (⟨(a + 1) % 3, by omega⟩ : Fin 3)).x +
          ((msq.tris.getD k Tri.empty).v
            (⟨(a + 2) % 3, by omega⟩ : Fin 3)).x) / 2 ∧
        mv1.y = (((msq.tris.getD k Tri.empty).v
            (⟨(a + 1) % 3, by omega⟩ : Fin 3)).y +
          ((msq.tris.getD k Tri.empty).v
            (⟨(a + 2) % 3, by omega⟩ : Fin 3)).y) / 2) ∧
    (∀ i (h : i < (pointsMilCpp msq).2.1.M.length),
      ((pointsMilCpp msq).2.1.M.get ⟨i, h⟩).2.1 = msq.nv + i) ∧
    (∀ e ∈ (pointsMilCpp msq).2.1.M,
      (∃ b, b < 3 ∧ keyOf msq (e.2.2, b) = e.1) ∧
      ∀ k' a', k' < e.2.2 → a' < 3 → keyOf msq (k', a') ≠ e.1)) :=
  ⟨⟨by decide, by decide⟩,
    pointsMil_midpoint_sharing msq (by decide) (by decide)⟩

/-! ### The two adjacency derivations compared (C3) -/

theorem alookup_some_mem {β : Type} (m : List ((ℕ × ℕ) × β)) (k : ℕ × ℕ)
    (v : β) (h : alookup m k = some v) : (k, v) ∈ m := by
  unfold alookup at h
  rcases hf : m.find? (fun e => decide (e.1 = k)) with _ | e
  · rw [hf] at h
    simp at h
  · rw [hf] at h
    simp only [Option.map_some', Option.some.injEq] at h
    have hp := List.find?_some hf
    have he := List.mem_of_find?_eq_some hf
    have h1 : e.1 = k := of_decide_eq_true hp
    rcases e with ⟨e1, e2⟩
    simp only at h h1
    subst h1
    subst h
    exact he

/-- Soundness of an adjacency table for edge sharing: every listed
neighbour pair shares an undirected edge key. -/
def EdgeSound (m : MeshIn) (vs : List (List ℕ)) : Prop :=
  ∀ k j, j ∈ vs.getD k [] →
    ∃ a b, a < 3 ∧ b < 3 ∧ keyOf m (k, a) = keyOf m (j, b)

theorem stepGmsh_snd (ME : List ((ℕ × ℕ) × ℤ)) (k a : ℕ)
    (st : PMCore × List (List ℕ)) :
    (stepGmsh ME k a st).2 =
      match alookup st.1.M (edgeKeyT (st.1.tris.getD k Tri.empty) a) with
      | some mo => pushPair st.2 k mo.2
      | none => st.2 := rfl

theorem gmshStep_preserves (m : MeshIn) (verts1 : List Vertex)
    (ME : List ((ℕ × ℕ) × ℤ)) (done : List (ℕ × ℕ)) (core : PMCore)
    (vs : List (List ℕ)) (k a : ℕ)
    (hk : k < m.tris.length) (ha : a < 3)
    (invA : CoreInvA m verts1 done core)
    (adj : AdjInv m.tris.length vs) (snd : EdgeSound m vs) :
    AdjInv m.tris.length (stepGmsh ME k a (core, vs)).2 ∧
    EdgeSound m (stepGmsh ME k a (core, vs)).2 := by
  rw [stepGmsh_snd]
  rcases halk : alookup core.M (edgeKeyT (core.tris.getD k Tri.empty) a)
    with _ | mo
  · exact ⟨adj, snd⟩
  · have hmem : (edgeKeyT (core.tris.getD k Tri.empty) a, mo) ∈ core.M :=
      alookup_some_mem _ _ _ halk
    obtain ⟨⟨b, hb, hbk⟩, hlt, -⟩ := invA.owners _ hmem
    have hkeyeq : edgeKeyT (core.tris.getD k Tri.empty) a = keyOf m (k, a) :=
      edgeKeyT_congr _ _ (fun i => invA.numStable k i) a
    have hshare : keyOf m (k, a) = keyOf m (mo.2, b) := by
      rw [← hkeyeq]
      exact (show keyOf m (mo.2, b) =
        edgeKeyT (core.tris.getD k Tri.empty) a from hbk).symm
    have hkl : k < vs.length := adj.len ▸ hk
    have hml : mo.2 < vs.length := adj.len ▸ hlt
    refine ⟨adjInv_pushPair _ _ _ _ hk hlt adj, ?_⟩
    intro y x hx
    rcases (pushPair_mem vs k mo.2 hkl hml x y).mp hx with h | ⟨rfl, rfl⟩ |
      ⟨rfl, rfl⟩
    · exact snd y x h
    · exact ⟨a, b, ha, hb, hshare⟩
    · exact ⟨b, a, hb, ha, hshare.symm⟩

theorem gmshAdjInv_runSteps (m : MeshIn) (verts1 : List Vertex)
    (ME : List ((ℕ × ℕ) × ℤ)) (K : ℕ) (hK : K ≤ m.tris.length) :
    AdjInv m.tris.length
      (runSteps (stepGmsh ME) K
        (⟨m.nv, [], verts1, m.tris⟩,
          List.replicate m.tris.length ([] : List ℕ))).2 ∧
    EdgeSound m
      (runSteps (stepGmsh ME) K
        (⟨m.nv, [], verts1, m.tris⟩,
          List.replicate m.tris.length ([] : List ℕ))).2 := by
  induction K with
  | zero =>
      refine ⟨adjInv_replicate _, ?_⟩
      intro k j hj
      have hj' : j ∈ (List.replicate m.tris.length
          ([] : List ℕ)).getD k [] := hj
      rw [getD_replicate_nil] at hj'
      simp at hj'
  | succ K ih =>
      obtain ⟨adj0, snd0⟩ := ih (by omega)
      have hKlt : K < m.tris.length := by omega
      have hcore : (runSteps (stepGmsh ME) K
          (⟨m.nv, [], verts1, m.tris⟩,
            List.replicate m.tris.length ([] : List ℕ))).1 =
          runCore ME K ⟨m.nv, [], verts1, m.tris⟩ :=
        runSteps_stepGmsh_fst ME K _ _
      have inv0 : CoreInvA m verts1 (donePairs K)
          (runSteps (stepGmsh ME) K
            (⟨m.nv, [], verts1, m.tris⟩,
              List.replicate m.tris.length ([] : List ℕ))).1 := by
        rw [hcore]
        exact coreInvA_runCore m verts1 ME K (by omega)
      have hm0 : ∀ p ∈ donePairs K, p.1 ≤ K := by
        intro p hp
        have := (donePairs_mem K p).mp hp
        omega
      have hm1 : ∀ p ∈ donePairs K ++ [(K, 0)], p.1 ≤ K := by
        intro p hp
        rcases List.mem_append.mp hp with h | h
        · exact hm0 p h
        · rw [List.mem_singleton] at h
          subst h
          exact le_refl K
      have hm2 : ∀ p ∈ donePairs K ++ [(K, 0)] ++ [(K, 1)], p.1 ≤ K := by
        intro p hp
        rcases List.mem_append.mp hp with h | h
        · exact hm1 p h
        · rw [List.mem_singleton] at h
          subst h
          exact le_refl K
      have step1 := gmshStep_preserves m verts1 ME (donePairs K) _ _ K 0
        hKlt (by omega) inv0 adj0 snd0
      have inv1 := edgeStepA m verts1 ME (donePairs K) _ K 0 hKlt (by omega)
        hm0 inv0
      have step2 := gmshStep_preserves m verts1 ME (donePairs K ++ [(K, 0)])
        _ _ K 1 hKlt (by omega) inv1 step1.1 step1.2
      have inv2 := edgeStepA m verts1 ME (donePairs K ++ [(K, 0)]) _ K 1
        hKlt (by omega) hm1 inv1
      have step3 := gmshStep_preserves m verts1 ME
        (donePairs K ++ [(K, 0)] ++ [(K, 1)]) _ _ K 2 hKlt (by omega) inv2
        step2.1 step2.2
      rw [runSteps_succ]
      exact step3

/-- All incidence lists of a core state's vertex list are empty. -/
def AllTriNil (c : PMCore) : Prop :=
  ∀ i, (c.verts.getD i Vertex.default).tri = []

theorem allTriNil_edgeCore (ME : List ((ℕ × ℕ) × ℤ)) (k a : ℕ) (s : PMCore)
    (h : AllTriNil s) : AllTriNil (edgeCore ME k a s) := by
  obtain ⟨tl, heq, htl⟩ := edgeCore_verts ME k a s
  intro i
  rw [heq]
  by_cases hi : i < s.verts.length
  · rw [List.getD_append _ _ _ _ hi]
    exact h i
  · by_cases hi2 : i < s.verts.length + tl.length
    · have hlen : i < (s.verts ++ tl).length := by
        rw [List.length_append]
        omega
      rw [List.getD_eq_getElem _ _ hlen]
      rw [List.getElem_append_right (by omega)]
      exact htl _ (List.getElem_mem _)
    · rw [List.getD_eq_default _ _ (by
        rw [List.length_append]
        omega)]
      rfl

theorem p4AdjTri_nil (c : PMCore) (k : ℕ) (vs : List (List ℕ))
    (hnil : AllTriNil c) : p4AdjTri c k vs = vs := by
  unfold p4AdjTri
  have hbody : ∀ (acc : List (List ℕ)) (a : ℕ),
      ((c.verts.getD ((c.tris.getD k Tri.empty).v
          (⟨a % 3, by omega⟩ : Fin 3)).num Vertex.default).tri).foldl
        (fun acc2 j =>
          if j ≠ k then acc2.set k (acc2.getD k [] ++ [j]) else acc2)
        acc = acc := by
    intro acc a
    rw [hnil]
    rfl
  show (List.range 3).foldl _ vs = vs
  rw [show List.range 3 = [0, 1, 2] from rfl]
  simp only [List.foldl_cons, List.foldl_nil]
  rw [hbody, hbody, hbody]

theorem p4_vois_replicate (m : MeshIn)
    (hnil : ∀ i, (m.verts.getD i Vertex.default).tri = []) :
    (pointsMilP4 m).2.2 = List.replicate m.tris.length ([] : List ℕ) := by
  have hinit : AllTriNil
      ⟨m.nv, [], (meStage m.edges m.verts true).2, m.tris⟩ := by
    intro i
    have hkeep := ((meStage_keeps m.edges m.verts true).2 i).2.2.2
    exact hkeep.trans (hnil i)
  have main : ∀ K,
      AllTriNil ((List.range K).foldl
        (fun st k =>
          let c' := (List.range 3).foldl
            (fun c a => edgeCore (meStage m.edges m.verts true).1 k a c) st.1
          (c', p4AdjTri c' k st.2))
        (⟨m.nv, [], (meStage m.edges m.verts true).2, m.tris⟩,
          List.replicate m.tris.length ([] : List ℕ))).1 ∧
      ((List.range K).foldl
        (fun st k =>
          let c' := (List.range 3).foldl
            (fun c a => edgeCore (meStage m.edges m.verts true).1 k a c) st.1
          (c', p4AdjTri c' k st.2))
        (⟨m.nv, [], (meStage m.edges m.verts true).2, m.tris⟩,
          List.replicate m.tris.length ([] : List ℕ))).2 =
        List.replicate m.tris.length ([] : List ℕ) := by
    intro K
    induction K with
    | zero => exact ⟨hinit, rfl⟩
    | succ K ih =>
        obtain ⟨hA, hS⟩ := ih
        rw [List.range_succ K, List.foldl_append]
        constructor
        · show AllTriNil ((List.range 3).foldl
            (fun c a => edgeCore (meStage m.edges m.verts true).1 K a c) _)
          show AllTriNil (edgeCore _ K 2 (edgeCore _ K 1 (edgeCore _ K 0 _)))
          exact allTriNil_edgeCore _ _ _ _ (allTriNil_edgeCore _ _ _ _
            (allTriNil_edgeCore _ _ _ _ hA))
        · show p4AdjTri ((List.range 3).foldl
            (fun c a => edgeCore (meStage m.edges m.verts true).1 K a c) _)
            K _ = _
          rw [p4AdjTri_nil]
          · exact hS
          · show AllTriNil (edgeCore _ K 2 (edgeCore _ K 1
              (edgeCore _ K 0 _)))
            exact allTriNil_edgeCore _ _ _ _ (allTriNil_edgeCore _ _ _ _
              (allTriNil_edgeCore _ _ _ _ hA))
  show (((List.range m.tris.length).foldl
    (fun st k =>
      let c' := (List.range 3).foldl
        (fun c a => edgeCore (meStage m.edges m.verts true).1 k a c) st.1
      (c', p4AdjTri c' k st.2))
    (⟨m.nv, [], (meStage m.edges m.verts true).2, m.tris⟩,
      List.replicate m.tris.length ([] : List ℕ))).2).map sortUnique = _
  rw [(main m.tris.length).2, List.map_replicate]
  rfl

/-- The 3-triangle mesh exhibiting the divergence of the two adjacency
derivations: triangle 2 shares an edge with triangle 1 (its first edge)
and with triangle 0 (its second edge), while triangles 0 and 1 share
only the vertex numbered 3.  Incidence lists are empty, as the mesh
constructors leave them (no caller of `ajoutTri` exists). -/
def m3 : MeshIn :=
  { nv := 6
    verts := [⟨0, 0, 0, 0, []⟩, ⟨2, 0, 1, 0, []⟩, ⟨1, 1, 2, 0, []⟩,
      ⟨1, -1, 3, 0, []⟩, ⟨3, -1, 4, 0, []⟩, ⟨0, -2, 5, 0, []⟩]
    tris :=
      [⟨![⟨1, 1, 2, 0, []⟩, ⟨1, -1, 3, 0, []⟩, ⟨0, -2, 5, 0, []⟩],
        fun _ => none⟩,
       ⟨![⟨2, 0, 1, 0, []⟩, ⟨1, -1, 3, 0, []⟩, ⟨3, -1, 4, 0, []⟩],
        fun _ => none⟩,
       ⟨![⟨1, 1, 2, 0, []⟩, ⟨2, 0, 1, 0, []⟩, ⟨1, -1, 3, 0, []⟩],
        fun _ => none⟩]
    edges := [] }

/-- The same mesh as `m3` but with the per-vertex incidence lists
populated as `ajoutTri` would have populated them, to compare the
corner-incidence adjacency derivation in its intended reading too. -/
def m3p : MeshIn :=
  { nv := 6
    verts := [⟨0, 0, 0, 0, []⟩, ⟨2, 0, 1, 0, [1, 2]⟩, ⟨1, 1, 2, 0, [0, 2]⟩,
      ⟨1, -1, 3, 0, [0, 1, 2]⟩, ⟨3, -1, 4, 0, [1]⟩, ⟨0, -2, 5, 0, [0]⟩]
    tris :=
      [⟨![⟨1, 1, 2, 0, [0, 2]⟩, ⟨1, -1, 3, 0, [0, 1, 2]⟩,
          ⟨0, -2, 5, 0, [0]⟩], fun _ => none⟩,
       ⟨![⟨2, 0, 1, 0, [1, 2]⟩, ⟨1, -1, 3, 0, [0, 1, 2]⟩,
          ⟨3, -1, 4, 0, [1]⟩], fun _ => none⟩,
       ⟨![⟨1, 1, 2, 0, [0, 2]⟩, ⟨2, 0, 1, 0, [1, 2]⟩,
          ⟨1, -1, 3, 0, [0, 1, 2]⟩], fun _ => none⟩]
    edges := [] }

/-- Counterexample to C3: the two adjacency derivations disagree.  On
`m3` (and already on the unit square `msq`) the edge-map derivation of
`mesh_gmsh.cpp` lists edge-sharing partners while the corner-incidence
derivation of `part_004` produces empty lists (its incidence lists are
never populated); on `m3p`, where the incidence lists are populated as
intended, the corner-incidence lists also contain the vertex-sharing
pair 0-1, which shares no edge; and the edge-map list `[1, 0]` of
triangle 2 of `m3` is not sorted. -/
theorem adjacency_derivations_counterexample :
    (pointsMilGmsh m3).2.2 ≠ (pointsMilP4 m3).2.2 ∧
    (pointsMilGmsh m3p).2.2 ≠ (pointsMilP4 m3p).2.2 ∧
    (pointsMilGmsh msq).2.2 ≠ (pointsMilP4 msq).2.2 ∧
    (pointsMilGmsh m3).2.2 = [[2], [2], [1, 0]] ∧
    (pointsMilP4 m3).2.2 = [[], [], []] ∧
    (pointsMilP4 m3p).2.2 = [[1, 2], [0, 2], [0, 1]] ∧
    (pointsMilGmsh msq).2.2 = [[1], [0]] ∧
    (pointsMilP4 msq).2.2 = [[], []] ∧
    ¬ ([1, 0] : List ℕ).Sorted (· ≤ ·) := by
  refine ⟨by decide, by decide, by decide, by decide, by decide, by decide,
    by decide, by decide, by decide⟩

/-- C3 (amended): the two adjacency derivations are not equivalent; what
holds is that the edge-map derivation of `mesh_gmsh.cpp` produces a
symmetric adjacency relation that only links triangles sharing an
undirected edge key, while the corner-incidence derivation of
`part_004`, whose per-vertex incidence lists are never populated by the
mesh constructors, produces empty adjacency lists. -/
theorem adjacency_derivations_diverge (m : MeshIn)
    (hnil : ∀ i, (m.verts.getD i Vertex.default).tri = []) :
    (∀ k j, (j ∈ (pointsMilGmsh m).2.2.getD k [] ↔
      k ∈ (pointsMilGmsh m).2.2.getD j [])) ∧
    (∀ k j, j ∈ (pointsMilGmsh m).2.2.getD k [] →
      ∃ a b, a < 3 ∧ b < 3 ∧ keyOf m (k, a) = keyOf m (j, b)) ∧
    (pointsMilP4 m).2.2 = List.replicate m.tris.length ([] : List ℕ) := by
  have h := gmshAdjInv_runSteps m (meStage m.edges m.verts false).2
    (meStage m.edges m.verts false).1 m.tris.length (le_refl _)
  exact ⟨h.1.sym, h.2, p4_vois_replicate m hnil⟩

/-- Closed witness for the amended C3 at the unit-square mesh. -/
theorem adjacency_derivations_diverge_witness :
    (∀ i, (msq.verts.getD i Vertex.default).tri = []) ∧
    ((∀ k j, (j ∈ (pointsMilGmsh msq).2.2.getD k [] ↔
      k ∈ (pointsMilGmsh msq).2.2.getD j [])) ∧
    (∀ k j, j ∈ (pointsMilGmsh msq).2.2.getD k [] →
      ∃ a b, a < 3 ∧ b < 3 ∧ keyOf msq (k, a) = keyOf msq (j, b)) ∧
    (pointsMilP4 msq).2.2 = List.replicate msq.tris.length ([] : List ℕ)) :=
  ⟨fun i => by rcases i with _ | _ | _ | _ | i <;> rfl,
    adjacency_derivations_diverge msq
      (fun i => by rcases i with _ | _ | _ | _ | i <;> rfl)⟩

/-! ### The quadratic extension ℚ(√15) and the assert phase of
`CalculCaracteristique` (C10)

The seven Gauss points used by `CalculCaracteristique`
(`Fonctions_Utiles.hpp` lines 255-260) involve `sqrt(15)`; the values
the assertions inspect therefore live in the ring ℚ(√15), represented
exactly as pairs `re + im·√15` of rationals. -/

/-- An element `re + im * sqrt 15` of the real quadratic field ℚ(√15),
the exact carrier of the quadrature-point arithmetic of
`CalculCaracteristique`. -/
structure Q15 where
  re : ℚ
  im : ℚ
deriving DecidableEq, Repr

theorem Q15.ext2 {p q : Q15} (h1 : p.re = q.re) (h2 : p.im = q.im) :
    p = q := by
  cases p; cases q; cases h1; cases h2; rfl

/-- Componentwise addition on ℚ(√15). -/
def Q15.add (p q : Q15) : Q15 := ⟨p.re + q.re, p.im + q.im⟩

/-- Multiplication on ℚ(√15): `(a+b√15)(c+d√15) = ac+15bd + (ad+bc)√15`. -/
def Q15.mul (p q : Q15) : Q15 :=
  ⟨p.re * q.re + 15 * (p.im * q.im), p.re * q.im + p.im * q.re⟩

/-- Negation on ℚ(√15). -/
def Q15.neg (p : Q15) : Q15 := ⟨-p.re, -p.im⟩

instance : Zero Q15 := ⟨⟨0, 0⟩⟩

instance : One Q15 := ⟨⟨1, 0⟩⟩

instance : Add Q15 := ⟨Q15.add⟩

instance : Mul Q15 := ⟨Q15.mul⟩

instance : Neg Q15 := ⟨Q15.neg⟩

@[simp] theorem Q15.add_re (p q : Q15) : (p + q).re = p.re + q.re := rfl

@[simp] theorem Q15.add_im (p q : Q15) : (p + q).im = p.im + q.im := rfl

@[simp] theorem Q15.mul_re (p q : Q15) :
    (p * q).re = p.re * q.re + 15 * (p.im * q.im) := rfl

@[simp] theorem Q15.mul_im (p q : Q15) :
    (p * q).im = p.re * q.im + p.im * q.re := rfl

@[simp] theorem Q15.neg_re (p : Q15) : (-p).re = -p.re := rfl

@[simp] theorem Q15.neg_im (p : Q15) : (-p).im = -p.im := rfl

@[simp] theorem Q15.zero_re : (0 : Q15).re = 0 := rfl

@[simp] theorem Q15.zero_im : (0 : Q15).im = 0 := rfl

@[simp] theorem Q15.one_re : (1 : Q15).re = 1 := rfl

@[simp] theorem Q15.one_im : (1 : Q15).im = 0 := rfl

instance : CommRing Q15 where
  add := (· + ·)
  add_assoc a b c := by apply Q15.ext2 <;> simp <;> ring
  zero := 0
  zero_add a := by apply Q15.ext2 <;> simp
  add_zero a := by apply Q15.ext2 <;> simp
  add_comm a b := by apply Q15.ext2 <;> simp <;> ring
  mul := (· * ·)
  left_distrib a b c := by apply Q15.ext2 <;> simp <;> ring
  right_distrib a b c := by apply Q15.ext2 <;> simp <;> ring
  zero_mul a := by apply Q15.ext2 <;> simp
  mul_zero a := by apply Q15.ext2 <;> simp
  mul_assoc a b c := by apply Q15.ext2 <;> simp <;> ring
  one := 1
  one_mul a := by apply Q15.ext2 <;> simp
  mul_one a := by apply Q15.ext2 <;> simp
  neg := (- ·)
  neg_add_cancel a := by apply Q15.ext2 <;> simp
  mul_comm a b := by apply Q15.ext2 <;> simp <;> ring
  nsmul := nsmulRec
  zsmul := zsmulRec

/-- Embedding of the rationals into ℚ(√15). -/
def Q15.ofQ (q : ℚ) : Q15 := ⟨q, 0⟩

/-- Decidable strict positivity of `re + im * sqrt 15`: the standard
sign computation in a real quadratic field, by comparing `re * re` with
`15 * im * im` according to the signs of the components. -/
def Q15.posB (p : Q15) : Bool :=
  if 0 ≤ p.im then
    decide (0 < p.re) ||
      (decide (0 < p.im) && decide (p.re * p.re < 15 * (p.im * p.im)))
  else decide (0 < p.re) && decide (15 * (p.im * p.im) < p.re * p.re)

/-- Decidable strict order on ℚ(√15): `p < q` iff `q - p` is positive. -/
def Q15.ltB (p q : Q15) : Bool := Q15.posB ⟨q.re - p.re, q.im - p.im⟩

/-- Soundness of the decidable sign: `posB` answers exactly whether the
real number `re + im * sqrt 15` is strictly positive. -/
theorem Q15.posB_iff (p : Q15) :
    p.posB = true ↔ 0 < (p.re : ℝ) + (p.im : ℝ) * Real.sqrt 15 := by
  have hs0 : (0 : ℝ) < Real.sqrt 15 := Real.sqrt_pos.mpr (by norm_num)
  have hs : Real.sqrt 15 * Real.sqrt 15 = 15 :=
    Real.mul_self_sqrt (by norm_num)
  unfold Q15.posB
  by_cases him : 0 ≤ p.im
  · have himR : (0 : ℝ) ≤ (p.im : ℝ) := by exact_mod_cast him
    simp only [him, if_pos, Bool.or_eq_true, Bool.and_eq_true,
      decide_eq_true_eq]
    constructor
    · rintro (hre | ⟨him2, hsq⟩)
      · have hreR : (0 : ℝ) < (p.re : ℝ) := by exact_mod_cast hre
        nlinarith [mul_nonneg himR hs0.le]
      · have him2R : (0 : ℝ) < (p.im : ℝ) := by exact_mod_cast him2
        have hsqR : (p.re : ℝ) * p.re < 15 * ((p.im : ℝ) * p.im) := by
          exact_mod_cast hsq
        nlinarith [mul_pos him2R hs0]
    · intro h
      by_cases hre : 0 < p.re
      · exact Or.inl hre
      · have hreR : (p.re : ℝ) ≤ 0 := by exact_mod_cast not_lt.mp hre
        right
        have him2R : (0 : ℝ) < (p.im : ℝ) := by nlinarith
        constructor
        · exact_mod_cast him2R
        · have : (p.re : ℝ) * p.re < 15 * ((p.im : ℝ) * p.im) := by
            nlinarith
          exact_mod_cast this
  · have himR : (p.im : ℝ) < 0 := by
      have := not_le.mp him
      exact_mod_cast this
    simp only [him, if_neg, Bool.and_eq_true, decide_eq_true_eq,
      not_false_eq_true]
    constructor
    · rintro ⟨hre, hsq⟩
      have hreR : (0 : ℝ) < (p.re : ℝ) := by exact_mod_cast hre
      have hsqR : 15 * ((p.im : ℝ) * p.im) < (p.re : ℝ) * p.re := by
        exact_mod_cast hsq
      nlinarith [mul_pos (neg_pos.mpr himR) hs0]
    · intro h
      have hpos : (0 : ℝ) < -(p.im : ℝ) * Real.sqrt 15 :=
        mul_pos (neg_pos.mpr himR) hs0
      have hreR : (0 : ℝ) < (p.re : ℝ) := by nlinarith
      have h2 : (0 : ℝ) < (p.re : ℝ) - (p.im : ℝ) * Real.sqrt 15 := by
        nlinarith
      refine ⟨by exact_mod_cast hreR, ?_⟩
      have : 15 * ((p.im : ℝ) * p.im) < (p.re : ℝ) * p.re := by
        nlinarith [mul_pos h h2]
      exact_mod_cast this

/-- Default triangle record, used for out-of-range accesses. -/
def dStTri : StTri := ⟨fun _ => Vertex.default, fun _ => Vertex.default⟩

/-- Global dof number of local dof `i` of triangle `t`, as read by
`recup` (`Fonctions_Utiles.hpp` lines 113-120): corner number for
`i < 3`, midpoint number for `3 ≤ i < 6`. -/
def dofNum (t : StTri) (i : ℕ) : ℕ :=
  if h : i < 3 then (t.v ⟨i, h⟩).num
  else if h6 : i < 6 then (t.mil ⟨i - 3, by omega⟩).num
  else 0

/-- Model of `recup` (`Fonctions_Utiles.hpp` lines 113-127): reads
the six previous-step velocity values of both components of triangle
`t` out of the solution vector `un`, the second component shifted by
the dof count `n`. -/
def recup (t : StTri) (un : List ℚ) (n : ℕ) : (ℕ → ℚ) × (ℕ → ℚ) :=
  (fun i => un.getD (dofNum t i) 0, fun i => un.getD (dofNum t i + n) 0)

/-- Model of `vitesseInterpolee` (`Fonctions_Utiles.hpp` lines
131-137): the P2 interpolation `Σ_{i<6} Phi i pt * un i`. -/
def vitesseInterpolee {K : Type} [CommRing K] (un : ℕ → K) (pt : K × K) :
    K :=
  ∑ i ∈ Finset.range 6, Phi i pt * un i

/-- The quadrature abscissa `(6 - sqrt 15) / 21` of
`CalculCaracteristique`. -/
def ptint1 : Q15 := ⟨6/21, -(1/21)⟩

/-- The quadrature abscissa `(9 - 2 * sqrt 15) / 21`. -/
def ptint2 : Q15 := ⟨9/21, -(2/21)⟩

/-- The quadrature abscissa `(6 + sqrt 15) / 21`. -/
def ptint3 : Q15 := ⟨6/21, 1/21⟩

/-- The quadrature abscissa `(9 + 2 * sqrt 15) / 21`. -/
def ptint4 : Q15 := ⟨9/21, 2/21⟩

/-- The seven reference quadrature points `PtsRef` of
`CalculCaracteristique` (`Fonctions_Utiles.hpp` lines 255-260); indices
beyond 6 (never used: the ps loop runs over `ps < 7`) repeat the last
point. -/
def ptsRefC : ℕ → Q15 × Q15
  | 0 => (⟨1/3, 0⟩, ⟨1/3, 0⟩)
  | 1 => (ptint1, ptint1)
  | 2 => (ptint1, ptint4)
  | 3 => (ptint4, ptint1)
  | 4 => (ptint3, ptint3)
  | 5 => (ptint3, ptint2)
  | _ => (ptint2, ptint3)

/-- The value `u1pInterp[ps]` inspected by the assertion at line 288 of
`Fonctions_Utiles.hpp`: the x-velocity of triangle `k` interpolated at
reference quadrature point `ps`. -/
def u1interpAt (tris : List StTri) (xprec : List ℚ) (n k ps : ℕ) : Q15 :=
  vitesseInterpolee
    (fun i => Q15.ofQ ((recup (tris.getD k dStTri) xprec n).1 i))
    (ptsRefC ps)

/-- The value `u2pInterp[ps]` inspected by the assertion at line 288 of
`Fonctions_Utiles.hpp`: the y-velocity of triangle `k` interpolated at
reference quadrature point `ps`. -/
def u2interpAt (tris : List StTri) (xprec : List ℚ) (n k ps : ℕ) : Q15 :=
  vitesseInterpolee
    (fun i => Q15.ofQ ((recup (tris.getD k dStTri) xprec n).2 i))
    (ptsRefC ps)

/-- The assert phase of `CalculCaracteristique` (`Fonctions_Utiles.hpp`
lines 251-294): `assert(xprec.size()>0)` at entry, then inside the
double loop over triangles `k` and quadrature points `ps` the
assertions `alpha>0`, `Th.voisins[k].size()>0` and
`u1pInterp[ps]<3 && u2pInterp[ps]<3` at lines 287-288 — all before the
fallback logic.  The function returns `true` exactly when no assertion
aborts the run. -/
def caracAssertPhase (tris : List StTri) (vois : List (List ℕ))
    (alpha : ℚ) (xprec : List ℚ) (n : ℕ) : Bool :=
  decide (0 < xprec.length) &&
    (List.range tris.length).all (fun k =>
      (List.range 7).all (fun ps =>
        decide (0 < alpha) && decide (0 < (vois.getD k []).length) &&
          (Q15.ltB (u1interpAt tris xprec n k ps) (Q15.ofQ 3) &&
           Q15.ltB (u2interpAt tris xprec n k ps) (Q15.ofQ 3))))

/-- C10: on any mesh with at least one triangle, the assert phase of
`CalculCaracteristique` passes — the error branch before the fallback
logic is unreachable — exactly when the previous-step solution vector
is non-empty, `alpha` is strictly positive, every triangle's adjacency
list is non-empty, and every interpolated previous-step velocity
component at every quadrature point is strictly less than 3. -/
theorem carac_assert_characterization (tris : List StTri)
    (vois : List (List ℕ)) (alpha : ℚ) (xprec : List ℚ) (n : ℕ)
    (hnt : 0 < tris.length) :
    caracAssertPhase tris vois alpha xprec n = true ↔
      (xprec ≠ [] ∧ 0 < alpha ∧
        (∀ k, k < tris.length → vois.getD k [] ≠ []) ∧
        (∀ k, k < tris.length → ∀ ps, ps < 7 →
          Q15.ltB (u1interpAt tris xprec n k ps) (Q15.ofQ 3) = true ∧
          Q15.ltB (u2interpAt tris xprec n k ps) (Q15.ofQ 3) = true)) := by
  unfold caracAssertPhase
  simp only [Bool.and_eq_true, List.all_eq_true, List.mem_range,
    decide_eq_true_eq]
  constructor
  · rintro ⟨hx, hall⟩
    refine ⟨?_, ?_, ?_, ?_⟩
    · exact List.length_pos.mp hx
    · exact (hall 0 hnt 0 (by omega)).1.1
    · intro k hk
      exact List.length_pos.mp (hall k hk 0 (by omega)).1.2
    · intro k hk ps hps
      exact (hall k hk ps hps).2
  · rintro ⟨hx, ha, hv, hu⟩
    refine ⟨List.length_pos.mpr hx, ?_⟩
    intro k hk ps hps
    exact ⟨⟨ha, List.length_pos.mpr (hv k hk)⟩, hu k hk ps hps⟩

/-- Closed witness for C10 at a one-triangle mesh with zero
previous-step velocities. -/
theorem carac_assert_characterization_witness :
    0 < ([dStTri] : List StTri).length ∧
      (caracAssertPhase [dStTri] [[0]] 1 [0] 1 = true ↔
        (([0] : List ℚ) ≠ [] ∧ (0 : ℚ) < 1 ∧
          (∀ k, k < ([dStTri] : List StTri).length →
            ([[0]] : List (List ℕ)).getD k [] ≠ []) ∧
          (∀ k, k < ([dStTri] : List StTri).length → ∀ ps, ps < 7 →
            Q15.ltB (u1interpAt [dStTri] [0] 1 k ps) (Q15.ofQ 3) = true ∧
            Q15.ltB (u2interpAt [dStTri] [0] 1 k ps) (Q15.ofQ 3) =
              true))) :=
  ⟨by decide,
    carac_assert_characterization [dStTri] [[0]] 1 [0] 1 (by decide)⟩

end NS
